import Mathlib

/-! Cache simulator (`main.c`): embedding and verified properties.

The C program simulates four cache organisations over an address trace.
This development embeds `init_cache` and `access_cache` and the four
`init_cache` calls of `main`.

Modelling conventions.

* `uint32_t` values (addresses, tags) are natural numbers; an address the
  program can receive is below `2 ^ 32`.  Shifting right and masking never
  leave that range, so no reduction modulo `2 ^ 32` is needed.
* `int` fields (`valid`, `counter`) are integers.  The only arithmetic on
  them is `counter += 1`; signed overflow is undefined in C, and the model
  uses the mathematical sum.  The two agree as long as the counter that is
  incremented is below `INT_MAX`.  Theorems about one call state the single
  increment; theorems about traces of unbounded length assume at most
  `INT_MAX` accesses to the set concerned and show that every counter of
  the set then stays between 0 and `INT_MAX` along the whole trace, so that
  no increment of the run overflows.
* The parameter `CacheLine cache[][NUM_LINES]` is a pointer to rows of
  `NUM_LINES` lines whose number of rows is not part of the type.  It is
  modelled as a total map from a row index and a way index to a line.  The
  way indices used by the code are below `NUM_LINES`, so distinct
  `(row, way)` pairs are distinct lines.
* `rand()` is modelled by an extra argument holding the value it returns.
-/

namespace CacheSim

/-! ## Constants and types -/

def CACHE_SIZE : Nat := 32

def BLOCK_SIZE : Nat := 4

def NUM_LINES : Nat := CACHE_SIZE / BLOCK_SIZE

inductive CacheType where
  | DIRECT_MAPPED
  | TWO_WAY
  | FOUR_WAY
  | FULLY_ASSOCIATIVE
  deriving DecidableEq

inductive ReplacementPolicy where
  | LRU
  | RANDOM
  deriving DecidableEq

structure CacheLine where
  tag : Nat
  valid : Int
  counter : Int
  deriving DecidableEq

/-- The storage behind a `CacheLine cache[][NUM_LINES]` parameter:
`cache set way` is the line `cache[set][way]`. -/
abbrev Cache := Nat → Nat → CacheLine

/-- Assignment `cache[set][way] = line`. -/
def store (cache : Cache) (set way : Nat) (line : CacheLine) : Cache :=
  fun s w => if s = set ∧ w = way then line else cache s w

/-! ## `init_cache` -/

/-- The two nested loops of `init_cache`: for every `i < num_sets` and
`j < associativity`, clear `valid` and `counter` of `cache[i][j]`. -/
def init_cache (cache : Cache) (num_sets associativity : Nat) : Cache :=
  (List.range num_sets).foldl
    (fun c i =>
      (List.range associativity).foldl
        (fun c j => store c i j { c i j with valid := 0, counter := 0 }) c)
    cache

/-! ## `access_cache` -/

/-- The local `num_sets` after the `switch (type)`. -/
def num_sets : CacheType → Nat
  | .DIRECT_MAPPED => NUM_LINES
  | .TWO_WAY => NUM_LINES / 2
  | .FOUR_WAY => NUM_LINES / 4
  | .FULLY_ASSOCIATIVE => 1

/-- The local `set_bits` after the `switch (type)`. -/
def set_bits : CacheType → Nat
  | .DIRECT_MAPPED => 5
  | .TWO_WAY => 4
  | .FOUR_WAY => 3
  | .FULLY_ASSOCIATIVE => 0

/-- The loop bound `NUM_LINES / num_sets` of every loop over ways. -/
def ways (type : CacheType) : Nat := NUM_LINES / num_sets type

/-- The local `set`: `(address >> 2) & ((1 << set_bits) - 1)`. -/
def set_index (address : Nat) (type : CacheType) : Nat :=
  (address >>> 2) &&& ((1 <<< set_bits type) - 1)

/-- The local `tag`: `address >> (2 + set_bits)`. -/
def tag_of (address : Nat) (type : CacheType) : Nat :=
  address >>> (2 + set_bits type)

/-- The condition `cache[set][i].valid && cache[set][i].tag == tag`. -/
def matches_line (cache : Cache) (set tag i : Nat) : Bool :=
  decide ((cache set i).valid ≠ 0) && decide ((cache set i).tag = tag)

/-- The hit scan: the first way `i < n` whose line matches, if any. -/
def find_hit (cache : Cache) (set tag n : Nat) : Option Nat :=
  (List.range n).find? (matches_line cache set tag)

/-- The loop `for j < n: cache[set][j].counter += (j != keep)`. -/
def bump_counters (cache : Cache) (set n keep : Nat) : Cache :=
  (List.range n).foldl
    (fun c j =>
      store c set j { c set j with counter := (c set j).counter + (if j ≠ keep then 1 else 0) })
    cache

/-- One iteration of the LRU victim loop. -/
def lru_step (cache : Cache) (set : Nat) (replacement i : Nat) : Nat :=
  if (cache set i).valid = 0 ∨ (cache set i).counter > (cache set replacement).counter then i
  else replacement

/-- The LRU victim loop: `replacement = 0`, then `i = 1, ..., n - 1`. -/
def lru_replacement (cache : Cache) (set n : Nat) : Nat :=
  (List.range' 1 (n - 1)).foldl (lru_step cache set) 0

/-- The local `replacement` on a miss; `rnd` is the value of `rand()`. -/
def replacement_way (cache : Cache) (set n : Nat) (policy : ReplacementPolicy) (rnd : Nat) : Nat :=
  match policy with
  | .RANDOM => rnd % n
  | .LRU => lru_replacement cache set n

/-- The function `access_cache`: the new cache contents and the returned
value (`1` hit, `0` miss). -/
def access_cache (cache : Cache) (address : Nat) (type : CacheType)
    (policy : ReplacementPolicy) (rnd : Nat) : Cache × Nat :=
  let set := set_index address type
  let tag := tag_of address type
  match find_hit cache set tag (ways type) with
  | some i =>
    let c := bump_counters cache set (ways type) i
    (store c set i { c set i with counter := 0 }, 1)
  | none =>
    let replacement := replacement_way cache set (ways type) policy rnd
    let c := store cache set replacement { tag := tag, valid := 1, counter := 0 }
    (bump_counters c set (ways type) replacement, 0)

/-- The way whose line an access hits or overwrites. -/
def touched_way (cache : Cache) (address : Nat) (type : CacheType)
    (policy : ReplacementPolicy) (rnd : Nat) : Nat :=
  match find_hit cache (set_index address type) (tag_of address type) (ways type) with
  | some i => i
  | none => replacement_way cache (set_index address type) (ways type) policy rnd

/-- A cache whose every line is `{0, 0, 0}`. -/
def zero_cache : Cache := fun _ _ => { tag := 0, valid := 0, counter := 0 }

/-- Consecutive LRU accesses of a trace: the final cache and the returned values. -/
def run_lru (type : CacheType) : Cache → List Nat → Cache × List Nat
  | c, [] => (c, [])
  | c, a :: rest =>
    let r := access_cache c a type .LRU 0
    let q := run_lru type r.1 rest
    (q.1, r.2 :: q.2)

/-! ## The `init_cache` calls of `main` -/

/-- The `(num_sets, associativity)` arguments `main` passes to `init_cache`
for the array it afterwards accesses with the given `CacheType`:
`init_cache(direct_mapped, 1, NUM_LINES)`, `init_cache(two_way, 2, NUM_LINES / 2)`,
`init_cache(four_way, 4, NUM_LINES / 4)`, `init_cache(fully_associative, NUM_LINES, 1)`. -/
def main_init_args : CacheType → Nat × Nat
  | .DIRECT_MAPPED => (1, NUM_LINES)
  | .TWO_WAY => (2, NUM_LINES / 2)
  | .FOUR_WAY => (4, NUM_LINES / 4)
  | .FULLY_ASSOCIATIVE => (NUM_LINES, 1)

/-- Memory holding stale lines: every line is valid with tag 0. -/
def stale_cache : Cache := fun _ _ => { tag := 0, valid := 1, counter := 0 }

/-! ## Runs of consecutive accesses -/

/-- Consecutive calls of `access_cache`, each with its own address, policy
and random draw: the final cache. -/
def run_accesses (type : CacheType) (c : Cache) (steps : List (Nat × ReplacementPolicy × Nat)) :
    Cache :=
  steps.foldl (fun c x => (access_cache c x.1 type x.2.1 x.2.2).1) c

/-- A cache together with the number of accesses made so far and, for each
line, the index of the most recent access that hit it or inserted it. -/
structure Traced where
  cache : Cache
  clock : Nat
  last : Nat → Nat → Option Nat

/-- One LRU access, recording which line it touched. -/
def traced_access (type : CacheType) (t : Traced) (address : Nat) : Traced :=
  { cache := (access_cache t.cache address type .LRU 0).1
    clock := t.clock + 1
    last := fun s w =>
      if s = set_index address type ∧ w = touched_way t.cache address type .LRU 0 then
        some t.clock
      else t.last s w }

/-- An LRU trace applied to a cache no line of which has been accessed. -/
def traced_run (type : CacheType) (c : Cache) (trace : List Nat) : Traced :=
  trace.foldl (traced_access type) { cache := c, clock := 0, last := fun _ _ => none }

/-! ## Predicates on sets -/

/-- Valid lines among the first `n` ways of row `s` have pairwise distinct tags. -/
def distinct_tags (c : Cache) (s n : Nat) : Prop :=
  ∀ i j, i < n → j < n → i ≠ j → (c s i).valid ≠ 0 → (c s j).valid ≠ 0 →
    (c s i).tag ≠ (c s j).tag

/-- No valid line among the first `n` ways of row `s` has a counter above
that of an invalid one. -/
def invalid_oldest (c : Cache) (s n : Nat) : Prop :=
  ∀ i j, i < n → j < n → (c s i).valid = 0 → (c s j).valid ≠ 0 →
    (c s j).counter ≤ (c s i).counter

/-- A two-way set 0 whose way 0 is invalid with counter 0 and whose way 1 is
valid with tag 7 and counter 1; every other line is zero. -/
def half_filled_cache : Cache :=
  fun s w => if s = 0 ∧ w = 1 then { tag := 7, valid := 1, counter := 1 }
    else { tag := 0, valid := 0, counter := 0 }

/-- The bookkeeping facts kept by every LRU access in row `s`: a valid line
has been accessed; recorded access indices are below the clock; accessed
lines have a non-negative counter; of two accessed lines the one accessed
later has the smaller counter; no two lines share a last access. -/
def recency_inv (type : CacheType) (s : Nat) (t : Traced) : Prop :=
  (∀ w, w < ways type → (t.cache s w).valid ≠ 0 → ∃ k, t.last s w = some k) ∧
  (∀ w k, t.last s w = some k → k < t.clock) ∧
  (∀ w k, w < ways type → t.last s w = some k → 0 ≤ (t.cache s w).counter) ∧
  (∀ i j ki kj, i < ways type → j < ways type → t.last s i = some ki → t.last s j = some kj →
    kj < ki → (t.cache s i).counter < (t.cache s j).counter) ∧
  (∀ i j k, t.last s i = some k → t.last s j = some k → i = j)

/-- Consecutive calls of `access_cache`, each with its own address, policy
and random draw: the final cache and the returned values. -/
def run_steps (type : CacheType) : Cache → List (Nat × ReplacementPolicy × Nat) → Cache × List Nat
  | c, [] => (c, [])
  | c, x :: rest =>
    let r := access_cache c x.1 type x.2.1 x.2.2
    let q := run_steps type r.1 rest
    (q.1, r.2 :: q.2)

/-- The cache `half_filled_cache` with the counter of the invalid way 0 of
set 0 changed from 0 to 5; every valid flag, and the tag and counter of the
one valid line, are the same. -/
def half_filled_cache_5 : Cache :=
  fun s w => if s = 0 ∧ w = 1 then { tag := 7, valid := 1, counter := 1 }
    else if s = 0 ∧ w = 0 then { tag := 0, valid := 0, counter := 5 }
    else { tag := 0, valid := 0, counter := 0 }

/-- Number of addresses of a trace that `access_cache` decodes to set `s`. -/
def accesses_to (type : CacheType) (s : Nat) (trace : List Nat) : Nat :=
  trace.countP (fun a => decide (set_index a type = s))

/-- After `k` accesses to row `s`: among its first `n` ways an invalid line
has counter `k` and a valid line has a counter from `0` to `k - 1`. -/
def age_inv (c : Cache) (s n : Nat) (k : Int) : Prop :=
  0 ≤ k ∧ ∀ w, w < n →
    ((c s w).valid = 0 → (c s w).counter = k) ∧
    ((c s w).valid ≠ 0 → 0 ≤ (c s w).counter ∧ (c s w).counter < k)

/-- The alternating trace `a, b, a, b, ...` of length `k`. -/
def alternating (a b : Nat) : Nat → List Nat
  | 0 => []
  | k + 1 => a :: alternating b a k

/-- Some way of the set selected by address `a` is valid and holds its tag. -/
def present (c : Cache) (a : Nat) (type : CacheType) : Prop :=
  ∃ i, i < ways type ∧ (c (set_index a type) i).valid ≠ 0 ∧
    (c (set_index a type) i).tag = tag_of a type

/-! ## Reference LRU model -/

/-- State of the reference model: for each set index a list of tags, most
recently used first. -/
abbrev RefState := Nat → List Nat

/-- Reference LRU on one list holding at most `cap` tags.  Hit: move the tag
to the front and report 1.  Miss: insert the tag at the front, dropping the
last tag if the list is full, and report 0. -/
def ref_touch (cap : Nat) (l : List Nat) (t : Nat) : List Nat × Nat :=
  if t ∈ l then (t :: l.erase t, 1)
  else if l.length < cap then (t :: l, 0)
  else (t :: l.dropLast, 0)

/-- One access of the reference model: the list of the set index decoded
from the address is touched with the decoded tag. -/
def ref_access (type : CacheType) (r : RefState) (address : Nat) : RefState × Nat :=
  ((fun s =>
      if s = set_index address type then
        (ref_touch (ways type) (r (set_index address type)) (tag_of address type)).1
      else r s),
    (ref_touch (ways type) (r (set_index address type)) (tag_of address type)).2)

/-- The reference model with every list empty. -/
def ref_init : RefState := fun _ => []

/-- A trace applied to the reference model: final state and hit/miss sequence. -/
def ref_run (type : CacheType) : RefState → List Nat → RefState × List Nat
  | r, [] => (r, [])
  | r, a :: rest =>
    let p := ref_access type r a
    let q := ref_run type p.1 rest
    (q.1, p.2 :: q.2)

/-- Row `s` of the cache represents the reference list `l`: the valid ways,
listed by increasing counter, hold the tags of `l` in order, the tags are
pairwise distinct, and the counters satisfy `age_inv`. -/
def row_rel (c : Cache) (s n : Nat) (l : List Nat) : Prop :=
  (∃ k, age_inv c s n k) ∧
  ∃ W : List Nat,
    (∀ w, w ∈ W ↔ w < n ∧ (c s w).valid ≠ 0) ∧
    l = W.map (fun w => (c s w).tag) ∧
    l.Nodup ∧
    W.Pairwise (fun x y => (c s x).counter < (c s y).counter)

/-- Largest value of the C type `int` (32 bits), the type of
`CacheLine.counter`: one more `counter += 1` on this value overflows. -/
def INT_MAX : Int := 2147483647

/-! # Theorems -/

/-! ## Basic facts about the embedding -/

theorem store_apply (c : Cache) (set way : Nat) (line : CacheLine) (s w : Nat) :
    store c set way line s w = if s = set ∧ w = way then line else c s w := rfl

theorem ways_pos (type : CacheType) : 0 < ways type := by
  cases type <;> decide

theorem ways_le (type : CacheType) : ways type ≤ NUM_LINES := by
  cases type <;> decide

/-- Closed form of the counter loop. -/
theorem bump_counters_apply (c : Cache) (set n keep s w : Nat) :
    bump_counters c set n keep s w =
      if s = set ∧ w < n then
        { c s w with counter := (c s w).counter + (if w ≠ keep then 1 else 0) }
      else c s w := by
  induction n with
  | zero => simp [bump_counters]
  | succ n ih =>
    have hstep : bump_counters c set (n + 1) keep =
        store (bump_counters c set n keep) set n
          { bump_counters c set n keep set n with
            counter := (bump_counters c set n keep set n).counter + (if n ≠ keep then 1 else 0) } := by
      simp [bump_counters, List.range_succ, List.foldl_append]
    rw [hstep, store_apply]
    by_cases hs : s = set
    · subst hs
      by_cases hw : w = n
      · subst hw
        simp [ih]
      · have h1 : (w < n + 1) = (w < n) := by
          apply propext; omega
        simp [hw, ih, h1]
    · simp [hs, ih]

/-- Closed form of the inner loop of `init_cache`. -/
theorem init_row_apply (c : Cache) (i n s w : Nat) :
    (List.range n).foldl
        (fun c j => store c i j { c i j with valid := 0, counter := 0 }) c s w =
      if s = i ∧ w < n then { c s w with valid := 0, counter := 0 } else c s w := by
  induction n with
  | zero => simp
  | succ n ih =>
    rw [List.range_succ, List.foldl_append]
    simp only [List.foldl_cons, List.foldl_nil, store_apply]
    by_cases hs : s = i
    · subst hs
      by_cases hw : w = n
      · subst hw
        simp [ih]
      · have h1 : (w < n + 1) = (w < n) := by
          apply propext; omega
        simp [hw, ih, h1]
    · simp [hs, ih]

/-- Closed form of `init_cache`. -/
theorem init_cache_apply (c : Cache) (m n s w : Nat) :
    init_cache c m n s w =
      if s < m ∧ w < n then { c s w with valid := 0, counter := 0 } else c s w := by
  induction m with
  | zero => simp [init_cache]
  | succ m ih =>
    have hstep : init_cache c (m + 1) n =
        (List.range n).foldl
          (fun c j => store c m j { c m j with valid := 0, counter := 0 }) (init_cache c m n) := by
      simp [init_cache, List.range_succ, List.foldl_append]
    rw [hstep, init_row_apply, ih]
    by_cases hs : s = m
    · subst hs
      by_cases hw : w < n
      · simp [hw]
      · simp [hw]
    · have h1 : (s < m + 1) = (s < m) := by
        apply propext; omega
      simp [hs, h1]

theorem matches_line_iff (c : Cache) (set tag i : Nat) :
    matches_line c set tag i = true ↔ (c set i).valid ≠ 0 ∧ (c set i).tag = tag := by
  simp [matches_line]

theorem find_hit_eq_none (c : Cache) (set tag n : Nat) :
    find_hit c set tag n = none ↔
      ∀ i, i < n → ¬ ((c set i).valid ≠ 0 ∧ (c set i).tag = tag) := by
  unfold find_hit
  rw [List.find?_eq_none]
  constructor
  · intro h i hi hm
    exact h i (List.mem_range.mpr hi) ((matches_line_iff c set tag i).mpr hm)
  · intro h i hi hm
    exact h i (List.mem_range.mp hi) ((matches_line_iff c set tag i).mp hm)

theorem find_hit_eq_some (c : Cache) (set tag n i : Nat) (h : find_hit c set tag n = some i) :
    i < n ∧ (c set i).valid ≠ 0 ∧ (c set i).tag = tag := by
  unfold find_hit at h
  exact ⟨List.mem_range.mp (List.mem_of_find?_eq_some h),
    (matches_line_iff c set tag i).mp (List.find?_some h)⟩

theorem lru_step_cases (c : Cache) (set r i : Nat) :
    lru_step c set r i = i ∨ lru_step c set r i = r := by
  unfold lru_step
  split
  · exact Or.inl rfl
  · exact Or.inr rfl

theorem lru_fold_lt (c : Cache) (set n : Nat) (l : List Nat) (r : Nat)
    (hl : ∀ x ∈ l, x < n) (hr : r < n) : l.foldl (lru_step c set) r < n := by
  induction l generalizing r with
  | nil => simpa using hr
  | cons x xs ih =>
    simp only [List.foldl_cons]
    apply ih
    · intro y hy
      exact hl y (List.mem_cons_of_mem _ hy)
    · rcases lru_step_cases c set r x with h | h
      · rw [h]; exact hl x (List.mem_cons_self _ _)
      · rw [h]; exact hr

theorem lru_replacement_lt (c : Cache) (set n : Nat) (hn : 0 < n) :
    lru_replacement c set n < n := by
  unfold lru_replacement
  apply lru_fold_lt
  · intro x hx
    rw [List.mem_range'_1] at hx
    omega
  · exact hn

theorem replacement_way_lt (c : Cache) (set n : Nat) (policy : ReplacementPolicy) (rnd : Nat)
    (hn : 0 < n) : replacement_way c set n policy rnd < n := by
  cases policy with
  | LRU => exact lru_replacement_lt c set n hn
  | RANDOM => exact Nat.mod_lt _ hn

theorem touched_way_lt (c : Cache) (a : Nat) (type : CacheType) (policy : ReplacementPolicy)
    (rnd : Nat) : touched_way c a type policy rnd < ways type := by
  unfold touched_way
  split
  · next i h => exact (find_hit_eq_some _ _ _ _ _ h).1
  · exact replacement_way_lt _ _ _ _ _ (ways_pos type)

theorem access_cache_hit (c : Cache) (a : Nat) (type : CacheType) (policy : ReplacementPolicy)
    (rnd i : Nat) (h : find_hit c (set_index a type) (tag_of a type) (ways type) = some i) :
    access_cache c a type policy rnd =
      (store (bump_counters c (set_index a type) (ways type) i) (set_index a type) i
        { bump_counters c (set_index a type) (ways type) i (set_index a type) i with
          counter := 0 }, 1) := by
  simp only [access_cache, h]

theorem access_cache_miss (c : Cache) (a : Nat) (type : CacheType) (policy : ReplacementPolicy)
    (rnd : Nat) (h : find_hit c (set_index a type) (tag_of a type) (ways type) = none) :
    access_cache c a type policy rnd =
      (bump_counters
        (store c (set_index a type)
          (replacement_way c (set_index a type) (ways type) policy rnd)
          { tag := tag_of a type, valid := 1, counter := 0 })
        (set_index a type) (ways type)
        (replacement_way c (set_index a type) (ways type) policy rnd), 0) := by
  simp only [access_cache, h]

/-- The value returned by `access_cache`. -/
theorem access_cache_ret (c : Cache) (a : Nat) (type : CacheType) (policy : ReplacementPolicy)
    (rnd : Nat) :
    (access_cache c a type policy rnd).2 =
      if (find_hit c (set_index a type) (tag_of a type) (ways type)).isSome then 1 else 0 := by
  cases hf : find_hit c (set_index a type) (tag_of a type) (ways type) with
  | some i => rw [access_cache_hit c a type policy rnd i hf]; rfl
  | none => rw [access_cache_miss c a type policy rnd hf]; rfl

/-- Closed form of the cache left by `access_cache`: in the selected set the
touched way holds the decoded tag, is valid and has counter 0; the other
ways below the loop bound have their counter incremented; every other line
is unchanged. -/
theorem access_cache_apply (c : Cache) (a : Nat) (type : CacheType) (policy : ReplacementPolicy)
    (rnd s w : Nat) :
    (access_cache c a type policy rnd).1 s w =
      if s = set_index a type ∧ w < ways type then
        if w = touched_way c a type policy rnd then
          if (find_hit c (set_index a type) (tag_of a type) (ways type)).isSome then
            { c s w with counter := 0 }
          else { tag := tag_of a type, valid := 1, counter := 0 }
        else { c s w with counter := (c s w).counter + 1 }
      else c s w := by
  have ht := touched_way_lt c a type policy rnd
  unfold touched_way at *
  cases hf : find_hit c (set_index a type) (tag_of a type) (ways type) with
  | some i =>
    rw [access_cache_hit c a type policy rnd i hf]
    simp only [hf] at ht
    simp only [store_apply, bump_counters_apply, Option.isSome_some, if_true]
    by_cases hs : s = set_index a type
    · subst hs
      by_cases hw : w = i
      · subst hw
        simp [ht]
      · simp [hw]
    · simp [hs]
  | none =>
    rw [access_cache_miss c a type policy rnd hf]
    simp only [hf] at ht
    simp only [store_apply, bump_counters_apply, Option.isSome_none]
    by_cases hs : s = set_index a type
    · subst hs
      by_cases hw : w = replacement_way c (set_index a type) (ways type) policy rnd
      · simp [hw, ht]
      · simp [hw]
    · simp [hs]

theorem ret_eq_one_iff (c : Cache) (a : Nat) (type : CacheType) (policy : ReplacementPolicy)
    (rnd : Nat) :
    (access_cache c a type policy rnd).2 = 1 ↔
      ∃ i, i < ways type ∧ (c (set_index a type) i).valid ≠ 0 ∧
        (c (set_index a type) i).tag = tag_of a type := by
  rw [access_cache_ret]
  cases hf : find_hit c (set_index a type) (tag_of a type) (ways type) with
  | some i =>
    simp only [Option.isSome_some, if_true, true_iff]
    exact ⟨i, find_hit_eq_some _ _ _ _ _ hf⟩
  | none =>
    simp only [Option.isSome_none, Bool.false_eq_true, if_false, Nat.zero_ne_one, false_iff]
    rintro ⟨i, hi, hm⟩
    exact (find_hit_eq_none _ _ _ _).mp hf i hi hm

theorem ret_eq_zero_iff (c : Cache) (a : Nat) (type : CacheType) (policy : ReplacementPolicy)
    (rnd : Nat) :
    (access_cache c a type policy rnd).2 = 0 ↔
      ¬ ∃ i, i < ways type ∧ (c (set_index a type) i).valid ≠ 0 ∧
        (c (set_index a type) i).tag = tag_of a type := by
  rw [← ret_eq_one_iff c a type policy rnd, access_cache_ret]
  split <;> simp

/-- After an access, the touched way of the selected set is valid and holds
the decoded tag. -/
theorem touched_line_after (c : Cache) (a : Nat) (type : CacheType) (policy : ReplacementPolicy)
    (rnd : Nat) :
    ((access_cache c a type policy rnd).1 (set_index a type)
        (touched_way c a type policy rnd)).valid ≠ 0 ∧
    ((access_cache c a type policy rnd).1 (set_index a type)
        (touched_way c a type policy rnd)).tag = tag_of a type := by
  rw [access_cache_apply]
  simp only [touched_way_lt, and_self, if_true]
  cases hf : find_hit c (set_index a type) (tag_of a type) (ways type) with
  | some i =>
    have h := find_hit_eq_some _ _ _ _ _ hf
    simp only [touched_way, hf, Option.isSome_some, if_true]
    exact h.2
  | none => simp

/-! ## Address decoding (C1, C2) -/

/-- C1 (the code departs from the claim): for `DIRECT_MAPPED` at address
`0x20` the code computes set index 8 and tag 0, while
`(address >> 2) & (num_sets - 1)` is 0 and
`address >> (2 + log2(num_sets))` is 1. -/
theorem decode_direct_mapped_0x20 :
    set_index 0x20 .DIRECT_MAPPED = 8 ∧ tag_of 0x20 .DIRECT_MAPPED = 0 ∧
    (0x20 >>> 2) &&& (num_sets .DIRECT_MAPPED - 1) = 0 ∧
    0x20 >>> (2 + Nat.log2 (num_sets .DIRECT_MAPPED)) = 1 := by
  refine ⟨by decide, by decide, by decide, ?_⟩
  simp [num_sets, NUM_LINES, CACHE_SIZE, BLOCK_SIZE, Nat.log2]

/-- C2 (the code departs from the claim): for the three set-associative
types there are 32-bit addresses whose set index is not below `num_sets`;
for `DIRECT_MAPPED` at `0x7c` it is 31 with `num_sets = 8`. -/
theorem set_index_out_of_range :
    set_index 0x7c .DIRECT_MAPPED = 31 ∧ num_sets .DIRECT_MAPPED = 8 ∧
    ¬ set_index 0x7c .DIRECT_MAPPED < num_sets .DIRECT_MAPPED ∧
    ¬ set_index 0x10 .TWO_WAY < num_sets .TWO_WAY ∧
    ¬ set_index 0x08 .FOUR_WAY < num_sets .FOUR_WAY := by
  decide

/-! ## Hit decision (C3, C4) -/

/-- C3: `access_cache` returns 1 exactly when some way
`i < NUM_LINES / num_sets` of the selected set holds a line with
`valid != 0` whose tag is the decoded tag, and returns 0 exactly when no
way does; a line with `valid = 0` is never matched. -/
theorem access_cache_hit_iff (c : Cache) (address : Nat) (type : CacheType)
    (policy : ReplacementPolicy) (rnd : Nat) :
    ((access_cache c address type policy rnd).2 = 1 ↔
      ∃ i, i < NUM_LINES / num_sets type ∧ (c (set_index address type) i).valid ≠ 0 ∧
        (c (set_index address type) i).tag = tag_of address type) ∧
    ((access_cache c address type policy rnd).2 = 0 ↔
      ¬ ∃ i, i < NUM_LINES / num_sets type ∧ (c (set_index address type) i).valid ≠ 0 ∧
        (c (set_index address type) i).tag = tag_of address type) :=
  ⟨ret_eq_one_iff c address type policy rnd, ret_eq_zero_iff c address type policy rnd⟩

/-- C4: two consecutive calls of `access_cache` with the same address: the
second returns 1, for every cache, type, policy and random draws. -/
theorem second_access_hits (c : Cache) (address : Nat) (type : CacheType)
    (policy : ReplacementPolicy) (rnd1 rnd2 : Nat) :
    (access_cache (access_cache c address type policy rnd1).1 address type policy rnd2).2 = 1 := by
  rw [ret_eq_one_iff]
  exact ⟨touched_way c address type policy rnd1, touched_way_lt _ _ _ _ _,
    touched_line_after c address type policy rnd1⟩

/-! ## Initialisation in `main` (C5) and the four-way scenario (C6) -/

/-- C5 (the code departs from the claim): for every one of the four models
the `(num_sets, associativity)` that `main` passes to `init_cache` differs
from the `(num_sets, NUM_LINES / num_sets)` of `access_cache`; for the
direct-mapped model `init_cache` gets `(1, 8)` and `access_cache` uses
`(8, 1)`, the line `cache[1][0]` probed for address `0x04` is not cleared,
and with stale contents the first access is a hit. -/
theorem main_init_mismatch :
    (∀ type, main_init_args type ≠ (num_sets type, NUM_LINES / num_sets type)) ∧
    main_init_args .DIRECT_MAPPED = (1, 8) ∧
    (num_sets .DIRECT_MAPPED, NUM_LINES / num_sets .DIRECT_MAPPED) = (8, 1) ∧
    set_index 0x04 .DIRECT_MAPPED = 1 ∧
    (init_cache stale_cache (main_init_args .DIRECT_MAPPED).1
      (main_init_args .DIRECT_MAPPED).2 1 0).valid = 1 ∧
    (access_cache
      (init_cache stale_cache (main_init_args .DIRECT_MAPPED).1
        (main_init_args .DIRECT_MAPPED).2) 0x04 .DIRECT_MAPPED .LRU 0).2 = 1 := by
  refine ⟨?_, by decide, by decide, by decide, by decide, by decide⟩
  intro type
  cases type <;> decide

/-- C6 (the code departs from the claim): on a cleared `FOUR_WAY` cache with
policy LRU the trace `0x00, 0x10, 0x20, 0x30, 0x40, 0x10, 0x00` returns
`0, 0, 0, 0, 0, 1, 1`: the last access to `0x00` is a hit, because the
addresses decode to sets `0, 4, 0, 4, 0` and the fifth access fills an
invalid way of set 0. -/
theorem four_way_scenario :
    (run_lru .FOUR_WAY (init_cache zero_cache (num_sets .FOUR_WAY) (ways .FOUR_WAY))
      [0x00, 0x10, 0x20, 0x30, 0x40, 0x10, 0x00]).2 = [0, 0, 0, 0, 0, 1, 1] ∧
    [0x00, 0x10, 0x20, 0x30, 0x40].map (fun a => set_index a .FOUR_WAY) = [0, 4, 0, 4, 0] ∧
    [0x00, 0x10, 0x20, 0x30, 0x40].map (fun a => tag_of a .FOUR_WAY) = [0, 0, 1, 1, 2] ∧
    ((run_lru .FOUR_WAY (init_cache zero_cache (num_sets .FOUR_WAY) (ways .FOUR_WAY))
      [0x00, 0x10, 0x20, 0x30, 0x40]).1 0 3) = { tag := 0, valid := 1, counter := 2 } := by
  decide

/-! ## LRU victim on arbitrary sets (C9) -/

/-- C9 (the code departs from the claim): in a `TWO_WAY` set whose way 0 is
invalid with counter 0 and whose way 1 is valid with counter 1, a miss under
LRU overwrites the valid way 1 and leaves way 0 invalid. -/
theorem lru_evicts_valid_beside_invalid :
    (half_filled_cache (set_index 0 .TWO_WAY) 0).valid = 0 ∧
    (half_filled_cache (set_index 0 .TWO_WAY) 1).valid = 1 ∧
    (access_cache half_filled_cache 0 .TWO_WAY .LRU 0).2 = 0 ∧
    lru_replacement half_filled_cache (set_index 0 .TWO_WAY) (NUM_LINES / num_sets .TWO_WAY) = 1 ∧
    (access_cache half_filled_cache 0 .TWO_WAY .LRU 0).1 (set_index 0 .TWO_WAY) 1 =
      { tag := 0, valid := 1, counter := 0 } ∧
    ((access_cache half_filled_cache 0 .TWO_WAY .LRU 0).1 (set_index 0 .TWO_WAY) 0).valid = 0 := by
  decide


/-! ## No duplicate tags (C8) -/

/-- What an access leaves in a line of the first `ways` ways: either the
line keeps its tag and valid flag, or the access missed and the line is the
freshly inserted one. -/
theorem line_after_access (c : Cache) (a : Nat) (type : CacheType) (policy : ReplacementPolicy)
    (rnd s w : Nat) :
    (((access_cache c a type policy rnd).1 s w).valid = (c s w).valid ∧
      ((access_cache c a type policy rnd).1 s w).tag = (c s w).tag) ∨
    (s = set_index a type ∧ w = touched_way c a type policy rnd ∧
      find_hit c (set_index a type) (tag_of a type) (ways type) = none ∧
      (access_cache c a type policy rnd).1 s w =
        { tag := tag_of a type, valid := 1, counter := 0 }) := by
  rw [access_cache_apply]
  by_cases hs : s = set_index a type ∧ w < ways type
  · rw [if_pos hs]
    by_cases hw : w = touched_way c a type policy rnd
    · rw [if_pos hw]
      cases hf : find_hit c (set_index a type) (tag_of a type) (ways type) with
      | some i => left; simp
      | none => right; exact ⟨hs.1, hw, rfl, by simp⟩
    · rw [if_neg hw]; left; simp
  · rw [if_neg hs]; left; simp

theorem distinct_tags_access (c : Cache) (a : Nat) (type : CacheType)
    (policy : ReplacementPolicy) (rnd s : Nat) (h : distinct_tags c s (ways type)) :
    distinct_tags (access_cache c a type policy rnd).1 s (ways type) := by
  intro i j hi hj hij hvi hvj
  rcases line_after_access c a type policy rnd s i with ⟨hi1, hi2⟩ | ⟨hsi, hwi, hfi, hei⟩
  · rcases line_after_access c a type policy rnd s j with ⟨hj1, hj2⟩ | ⟨hsj, hwj, hfj, hej⟩
    · rw [hi1] at hvi
      rw [hj1] at hvj
      rw [hi2, hj2]
      exact h i j hi hj hij hvi hvj
    · rw [hi1] at hvi
      rw [hi2, hej]
      subst hsj
      intro heq
      exact (find_hit_eq_none _ _ _ _).mp hfj i hi ⟨hvi, heq⟩
  · rcases line_after_access c a type policy rnd s j with ⟨hj1, hj2⟩ | ⟨hsj, hwj, hfj, hej⟩
    · rw [hj1] at hvj
      rw [hj2, hei]
      subst hsi
      intro heq
      exact (find_hit_eq_none _ _ _ _).mp hfi j hj ⟨hvj, heq.symm⟩
    · exact absurd (hwi.trans hwj.symm) hij

theorem distinct_tags_run (type : CacheType) (s : Nat)
    (steps : List (Nat × ReplacementPolicy × Nat)) (c : Cache)
    (h : distinct_tags c s (ways type)) :
    distinct_tags (run_accesses type c steps) s (ways type) := by
  induction steps generalizing c with
  | nil => exact h
  | cons x xs ih =>
    simp only [run_accesses, List.foldl_cons]
    exact ih _ (distinct_tags_access c x.1 type x.2.1 x.2.2 s h)

theorem init_cache_invalid (c0 : Cache) (m n s w : Nat) (hs : s < m) (hw : w < n) :
    (init_cache c0 m n s w).valid = 0 ∧ (init_cache c0 m n s w).counter = 0 := by
  rw [init_cache_apply]
  simp [hs, hw]

/-- C8: in every state reached from an initialised cache by any sequence of
`access_cache` calls (any policies, any random draws) the valid lines of an
initialised set have pairwise distinct tags; and from any cache `c` in which
the valid lines of a set have pairwise distinct tags, every sequence of
calls leads to a cache in which they still have. -/
theorem no_duplicate_tags (type : CacheType) (c0 : Cache) (m n s : Nat)
    (steps : List (Nat × ReplacementPolicy × Nat)) (c : Cache)
    (hs : s < m) (hn : NUM_LINES / num_sets type ≤ n)
    (hc : distinct_tags c s (NUM_LINES / num_sets type)) :
    distinct_tags (run_accesses type (init_cache c0 m n) steps) s (NUM_LINES / num_sets type) ∧
    distinct_tags (run_accesses type c steps) s (NUM_LINES / num_sets type) := by
  refine ⟨?_, distinct_tags_run type s steps c hc⟩
  apply distinct_tags_run type s steps
  intro i j hi _ _ hvi _
  have hn' : ways type ≤ n := hn
  exact absurd (init_cache_invalid c0 m n s i hs (Nat.lt_of_lt_of_le hi hn')).1 hvi

theorem no_duplicate_tags_witness :
    (0 < 4 ∧ NUM_LINES / num_sets .TWO_WAY ≤ 2 ∧
      distinct_tags half_filled_cache 0 (NUM_LINES / num_sets .TWO_WAY)) ∧
    distinct_tags
      (run_accesses .TWO_WAY (init_cache stale_cache 4 2) [(0x00, .LRU, 0), (0x40, .RANDOM, 5)])
      0 (NUM_LINES / num_sets .TWO_WAY) ∧
    distinct_tags
      (run_accesses .TWO_WAY half_filled_cache [(0x00, .LRU, 0), (0x40, .RANDOM, 5)])
      0 (NUM_LINES / num_sets .TWO_WAY) :=
  have hc : distinct_tags half_filled_cache 0 (NUM_LINES / num_sets .TWO_WAY) := by
    intro i j hi hj hij hvi _
    have hi2 : i < 2 := hi
    have hj2 : j < 2 := hj
    interval_cases i <;> interval_cases j <;> simp_all [half_filled_cache]
  ⟨⟨by decide, by decide, hc⟩,
    no_duplicate_tags .TWO_WAY stale_cache 4 2 0 [(0x00, .LRU, 0), (0x40, .RANDOM, 5)]
      half_filled_cache (by decide) (by decide) hc⟩

/-! ## LRU victim among invalid ways (C10) -/

/-- C10 (counterexample to the claim as stated): on a cleared `FOUR_WAY`
cache every way of set 0 is invalid, and the miss for address `0x20`
overwrites way 3, not way 0, which stays invalid. -/
theorem fresh_four_way_fills_way_3 :
    (access_cache (init_cache zero_cache 2 4) 0x20 .FOUR_WAY .LRU 0).2 = 0 ∧
    (init_cache zero_cache 2 4 (set_index 0x20 .FOUR_WAY) 0).valid = 0 ∧
    lru_replacement (init_cache zero_cache 2 4) (set_index 0x20 .FOUR_WAY)
      (NUM_LINES / num_sets .FOUR_WAY) = 3 ∧
    (access_cache (init_cache zero_cache 2 4) 0x20 .FOUR_WAY .LRU 0).1
      (set_index 0x20 .FOUR_WAY) 3 = { tag := 1, valid := 1, counter := 0 } ∧
    ((access_cache (init_cache zero_cache 2 4) 0x20 .FOUR_WAY .LRU 0).1
      (set_index 0x20 .FOUR_WAY) 0).valid = 0 := by
  decide

/-- Invariant of the LRU victim loop after the ways `1, ..., m` have been
examined, when no valid way has a counter above that of an invalid one: the
candidate is below `m + 1`, every way after it is valid, and it is invalid
as soon as some way up to `m` is. -/
theorem lru_fold_highest_invalid (c : Cache) (set n : Nat) (h : invalid_oldest c set n)
    (m : Nat) (hm : m + 1 ≤ n) :
    (List.range' 1 m).foldl (lru_step c set) 0 < m + 1 ∧
    (∀ j, (List.range' 1 m).foldl (lru_step c set) 0 < j → j < m + 1 → (c set j).valid ≠ 0) ∧
    ((∃ i, i < m + 1 ∧ (c set i).valid = 0) →
      (c set ((List.range' 1 m).foldl (lru_step c set) 0)).valid = 0) := by
  induction m with
  | zero =>
    refine ⟨by simp, ?_, ?_⟩
    · intro j h1 h2
      simp at h1
      omega
    · rintro ⟨i, hi, hv⟩
      have : i = 0 := by omega
      subst this
      simpa using hv
  | succ m ih =>
    obtain ⟨ih1, ih2, ih3⟩ := ih (by omega)
    rw [List.range'_1_concat, List.foldl_append]
    simp only [List.foldl_cons, List.foldl_nil]
    generalize (List.range' 1 m).foldl (lru_step c set) 0 = r at ih1 ih2 ih3 ⊢
    unfold lru_step
    by_cases hv : (c set (1 + m)).valid = 0
    · rw [if_pos (Or.inl hv)]
      refine ⟨by omega, ?_, fun _ => hv⟩
      intro j h1 h2
      omega
    · by_cases hgt : (c set (1 + m)).counter > (c set r).counter
      · rw [if_pos (Or.inr hgt)]
        refine ⟨by omega, ?_, ?_⟩
        · intro j h1 h2
          omega
        · rintro ⟨i, hi, hiv⟩
          have hne : i ≠ 1 + m := by
            intro heq
            rw [heq] at hiv
            exact hv hiv
          have hr : (c set r).valid = 0 := ih3 ⟨i, by omega, hiv⟩
          have := h r (1 + m) (by omega) (by omega) hr hv
          omega
      · rw [if_neg (by
          intro hor
          rcases hor with h1 | h1
          · exact hv h1
          · exact hgt h1)]
        refine ⟨by omega, ?_, ?_⟩
        · intro j h1 h2
          by_cases hj : j = 1 + m
          · rw [hj]; exact hv
          · exact ih2 j h1 (by omega)
        · rintro ⟨i, hi, hiv⟩
          have hne : i ≠ 1 + m := by
            intro heq
            rw [heq] at hiv
            exact hv hiv
          exact ih3 ⟨i, by omega, hiv⟩

/-- C10 (amended): for policy LRU, when `access_cache` misses, the selected
set has an invalid way, and no valid way of the set has a counter above that
of an invalid way, the way it overwrites is the highest-indexed invalid way
of the set. -/
theorem lru_miss_fills_highest_invalid (c : Cache) (address : Nat) (type : CacheType)
    (rnd : Nat)
    (hmiss : (access_cache c address type .LRU rnd).2 = 0)
    (hinv : ∃ i, i < NUM_LINES / num_sets type ∧ (c (set_index address type) i).valid = 0)
    (hold : invalid_oldest c (set_index address type) (NUM_LINES / num_sets type)) :
    touched_way c address type .LRU rnd =
      lru_replacement c (set_index address type) (NUM_LINES / num_sets type) ∧
    touched_way c address type .LRU rnd < NUM_LINES / num_sets type ∧
    (c (set_index address type) (touched_way c address type .LRU rnd)).valid = 0 ∧
    (∀ j, touched_way c address type .LRU rnd < j → j < NUM_LINES / num_sets type →
      (c (set_index address type) j).valid ≠ 0) ∧
    (access_cache c address type .LRU rnd).1 (set_index address type)
      (touched_way c address type .LRU rnd) =
      { tag := tag_of address type, valid := 1, counter := 0 } := by
  have hf : find_hit c (set_index address type) (tag_of address type) (ways type) = none := by
    rw [access_cache_ret] at hmiss
    cases hfh : find_hit c (set_index address type) (tag_of address type) (ways type) with
    | none => rfl
    | some i => simp [hfh] at hmiss
  have ht : touched_way c address type .LRU rnd =
      lru_replacement c (set_index address type) (ways type) := by
    simp only [touched_way, hf, replacement_way]
  have hpos := ways_pos type
  have hfold := lru_fold_highest_invalid c (set_index address type) (ways type) hold
    (ways type - 1) (by omega)
  have hsub : ways type - 1 + 1 = ways type := by omega
  rw [hsub] at hfold
  obtain ⟨h1, h2, h3⟩ := hfold
  have hlt := touched_way_lt c address type .LRU rnd
  refine ⟨ht, hlt, ?_, ?_, ?_⟩
  · rw [ht]
    exact h3 hinv
  · rw [ht]
    exact h2
  · rw [access_cache_apply]
    simp [hlt, hf]

theorem lru_miss_fills_highest_invalid_witness :
    (access_cache zero_cache 0x20 .FOUR_WAY .LRU 0).2 = 0 ∧
    (∃ i, i < NUM_LINES / num_sets .FOUR_WAY ∧
      (zero_cache (set_index 0x20 .FOUR_WAY) i).valid = 0) ∧
    invalid_oldest zero_cache (set_index 0x20 .FOUR_WAY) (NUM_LINES / num_sets .FOUR_WAY) ∧
    touched_way zero_cache 0x20 .FOUR_WAY .LRU 0 = 3 ∧
    (access_cache zero_cache 0x20 .FOUR_WAY .LRU 0).1 (set_index 0x20 .FOUR_WAY)
      (touched_way zero_cache 0x20 .FOUR_WAY .LRU 0) =
      { tag := tag_of 0x20 .FOUR_WAY, valid := 1, counter := 0 } :=
  have hold : invalid_oldest zero_cache (set_index 0x20 .FOUR_WAY)
      (NUM_LINES / num_sets .FOUR_WAY) := by
    intro i j _ _ _ hj
    simp [zero_cache] at hj
  ⟨by decide, ⟨0, by decide, by decide⟩, hold, by decide,
    (lru_miss_fills_highest_invalid zero_cache 0x20 .FOUR_WAY 0 (by decide)
      ⟨0, by decide, by decide⟩ hold).2.2.2.2⟩

/-! ## LRU recency order (C7) -/

theorem counter_touched (c : Cache) (a : Nat) (type : CacheType) (policy : ReplacementPolicy)
    (rnd : Nat) :
    ((access_cache c a type policy rnd).1 (set_index a type)
      (touched_way c a type policy rnd)).counter = 0 := by
  rw [access_cache_apply]
  simp only [touched_way_lt, and_self, if_true]
  split <;> rfl

theorem counter_other (c : Cache) (a : Nat) (type : CacheType) (policy : ReplacementPolicy)
    (rnd w : Nat) (hw : w < ways type) (hne : w ≠ touched_way c a type policy rnd) :
    ((access_cache c a type policy rnd).1 (set_index a type) w).counter =
      (c (set_index a type) w).counter + 1 ∧
    ((access_cache c a type policy rnd).1 (set_index a type) w).valid =
      (c (set_index a type) w).valid := by
  rw [access_cache_apply]
  simp [hw, hne]

theorem other_set_unchanged (c : Cache) (a : Nat) (type : CacheType)
    (policy : ReplacementPolicy) (rnd s w : Nat) (hs : s ≠ set_index a type) :
    (access_cache c a type policy rnd).1 s w = c s w := by
  rw [access_cache_apply]
  simp [hs]

theorem recency_inv_access (type : CacheType) (s : Nat) (t : Traced) (a : Nat)
    (h : recency_inv type s t) : recency_inv type s (traced_access type t a) := by
  obtain ⟨ha, hb, hc, hd, he⟩ := h
  by_cases hs : s = set_index a type
  · subst hs
    have hlast : ∀ w, (traced_access type t a).last (set_index a type) w =
        if w = touched_way t.cache a type .LRU 0 then some t.clock
        else t.last (set_index a type) w := by
      intro w
      simp [traced_access]
    have hcache : (traced_access type t a).cache = (access_cache t.cache a type .LRU 0).1 := rfl
    have hclock : (traced_access type t a).clock = t.clock + 1 := rfl
    refine ⟨?_, ?_, ?_, ?_, ?_⟩
    · intro w hw hv
      rw [hlast]
      by_cases hwt : w = touched_way t.cache a type .LRU 0
      · exact ⟨t.clock, by rw [if_pos hwt]⟩
      · rw [if_neg hwt]
        rw [hcache, (counter_other t.cache a type .LRU 0 w hw hwt).2] at hv
        exact ha w hw hv
    · intro w k hk
      rw [hlast] at hk
      rw [hclock]
      by_cases hwt : w = touched_way t.cache a type .LRU 0
      · rw [if_pos hwt] at hk
        injection hk with hk
        omega
      · rw [if_neg hwt] at hk
        have := hb w k hk
        omega
    · intro w k hw hk
      rw [hlast] at hk
      rw [hcache]
      by_cases hwt : w = touched_way t.cache a type .LRU 0
      · rw [hwt, counter_touched]
      · rw [if_neg hwt] at hk
        rw [(counter_other t.cache a type .LRU 0 w hw hwt).1]
        have := hc w k hw hk
        omega
    · intro i j ki kj hi hj hki hkj hlt
      rw [hlast] at hki hkj
      rw [hcache]
      by_cases hit : i = touched_way t.cache a type .LRU 0
      · rw [if_pos hit] at hki
        injection hki with hki
        by_cases hjt : j = touched_way t.cache a type .LRU 0
        · rw [if_pos hjt] at hkj
          injection hkj with hkj
          omega
        · rw [if_neg hjt] at hkj
          rw [hit, counter_touched, (counter_other t.cache a type .LRU 0 j hj hjt).1]
          have := hc j kj hj hkj
          omega
      · rw [if_neg hit] at hki
        by_cases hjt : j = touched_way t.cache a type .LRU 0
        · rw [if_pos hjt] at hkj
          injection hkj with hkj
          have := hb i ki hki
          omega
        · rw [if_neg hjt] at hkj
          rw [(counter_other t.cache a type .LRU 0 i hi hit).1,
            (counter_other t.cache a type .LRU 0 j hj hjt).1]
          have := hd i j ki kj hi hj hki hkj hlt
          omega
    · intro i j k hki hkj
      rw [hlast] at hki hkj
      by_cases hit : i = touched_way t.cache a type .LRU 0
      · rw [if_pos hit] at hki
        injection hki with hki
        by_cases hjt : j = touched_way t.cache a type .LRU 0
        · rw [hit, hjt]
        · rw [if_neg hjt] at hkj
          have := hb j k hkj
          omega
      · rw [if_neg hit] at hki
        by_cases hjt : j = touched_way t.cache a type .LRU 0
        · rw [if_pos hjt] at hkj
          injection hkj with hkj
          have := hb i k hki
          omega
        · rw [if_neg hjt] at hkj
          exact he i j k hki hkj
  · have hlast : ∀ w, (traced_access type t a).last s w = t.last s w := by
      intro w
      simp [traced_access, hs]
    have hcache : ∀ w, (traced_access type t a).cache s w = t.cache s w := by
      intro w
      exact other_set_unchanged t.cache a type .LRU 0 s w hs
    have hclock : (traced_access type t a).clock = t.clock + 1 := rfl
    refine ⟨?_, ?_, ?_, ?_, ?_⟩
    · intro w hw hv
      rw [hlast]
      rw [hcache] at hv
      exact ha w hw hv
    · intro w k hk
      rw [hlast] at hk
      rw [hclock]
      have := hb w k hk
      omega
    · intro w k hw hk
      rw [hlast] at hk
      rw [hcache]
      exact hc w k hw hk
    · intro i j ki kj hi hj hki hkj hlt
      rw [hlast] at hki hkj
      rw [hcache, hcache]
      exact hd i j ki kj hi hj hki hkj hlt
    · intro i j k hki hkj
      rw [hlast] at hki hkj
      exact he i j k hki hkj

theorem recency_inv_fold (type : CacheType) (s : Nat) (trace : List Nat) (t : Traced)
    (h : recency_inv type s t) : recency_inv type s (trace.foldl (traced_access type) t) := by
  induction trace generalizing t with
  | nil => exact h
  | cons a rest ih =>
    simp only [List.foldl_cons]
    exact ih _ (recency_inv_access type s t a h)

theorem recency_inv_run (type : CacheType) (s : Nat) (c : Cache) (trace : List Nat)
    (h : ∀ w, w < ways type → (c s w).valid = 0) :
    recency_inv type s (traced_run type c trace) := by
  apply recency_inv_fold
  refine ⟨?_, ?_, ?_, ?_, ?_⟩
  · intro w hw hv
    exact absurd (h w hw) hv
  · intro w k hk
    simp at hk
  · intro w k _ hk
    simp at hk
  · intro i j ki kj _ _ hki
    simp at hki
  · intro i j k hki
    simp at hki

/-! ## LRU victim in a full set (C11) -/

theorem find_hit_of_ret_zero (c : Cache) (a : Nat) (type : CacheType)
    (policy : ReplacementPolicy) (rnd : Nat) (h : (access_cache c a type policy rnd).2 = 0) :
    find_hit c (set_index a type) (tag_of a type) (ways type) = none := by
  rw [access_cache_ret] at h
  cases hf : find_hit c (set_index a type) (tag_of a type) (ways type) with
  | none => rfl
  | some i => simp [hf] at h

/-- Invariant of the LRU victim loop on a set all of whose ways are valid,
after the ways `1, ..., m` have been examined: the candidate holds the
largest counter seen and every way before it holds a smaller one. -/
theorem lru_fold_first_max (c : Cache) (set n : Nat)
    (hall : ∀ w, w < n → (c set w).valid ≠ 0) (m : Nat) (hm : m + 1 ≤ n) :
    (List.range' 1 m).foldl (lru_step c set) 0 < m + 1 ∧
    (∀ j, j < m + 1 →
      (c set j).counter ≤ (c set ((List.range' 1 m).foldl (lru_step c set) 0)).counter) ∧
    (∀ j, j < (List.range' 1 m).foldl (lru_step c set) 0 →
      (c set j).counter < (c set ((List.range' 1 m).foldl (lru_step c set) 0)).counter) := by
  induction m with
  | zero =>
    refine ⟨by simp, ?_, ?_⟩
    · intro j hj
      have : j = 0 := by omega
      subst this
      simp
    · intro j hj
      simp at hj
  | succ m ih =>
    obtain ⟨ih1, ih2, ih3⟩ := ih (by omega)
    rw [List.range'_1_concat, List.foldl_append]
    simp only [List.foldl_cons, List.foldl_nil]
    generalize (List.range' 1 m).foldl (lru_step c set) 0 = r at ih1 ih2 ih3 ⊢
    have hv : (c set (1 + m)).valid ≠ 0 := hall (1 + m) (by omega)
    unfold lru_step
    by_cases hgt : (c set (1 + m)).counter > (c set r).counter
    · rw [if_pos (Or.inr hgt)]
      refine ⟨by omega, ?_, ?_⟩
      · intro j hj
        by_cases hjm : j = 1 + m
        · rw [hjm]
        · have := ih2 j (by omega)
          omega
      · intro j hj
        have := ih2 j (by omega)
        omega
    · rw [if_neg (by
        intro hor
        rcases hor with h1 | h1
        · exact hv h1
        · exact hgt h1)]
      refine ⟨by omega, ?_, ih3⟩
      intro j hj
      by_cases hjm : j = 1 + m
      · rw [hjm]
        omega
      · exact ih2 j (by omega)

/-- C11: for policy LRU, when `access_cache` misses and every way of the
selected set is valid, the overwritten way holds the maximal counter of the
set and every way with a lower index holds a strictly smaller counter. -/
theorem lru_miss_evicts_first_max (c : Cache) (address : Nat) (type : CacheType) (rnd : Nat)
    (hmiss : (access_cache c address type .LRU rnd).2 = 0)
    (hall : ∀ w, w < NUM_LINES / num_sets type → (c (set_index address type) w).valid ≠ 0) :
    touched_way c address type .LRU rnd =
      lru_replacement c (set_index address type) (NUM_LINES / num_sets type) ∧
    touched_way c address type .LRU rnd < NUM_LINES / num_sets type ∧
    (∀ j, j < NUM_LINES / num_sets type →
      (c (set_index address type) j).counter ≤
        (c (set_index address type) (touched_way c address type .LRU rnd)).counter) ∧
    (∀ j, j < touched_way c address type .LRU rnd →
      (c (set_index address type) j).counter <
        (c (set_index address type) (touched_way c address type .LRU rnd)).counter) ∧
    (access_cache c address type .LRU rnd).1 (set_index address type)
      (touched_way c address type .LRU rnd) =
      { tag := tag_of address type, valid := 1, counter := 0 } := by
  have hf := find_hit_of_ret_zero c address type .LRU rnd hmiss
  have ht : touched_way c address type .LRU rnd =
      lru_replacement c (set_index address type) (ways type) := by
    simp only [touched_way, hf, replacement_way]
  have hpos := ways_pos type
  have hfold := lru_fold_first_max c (set_index address type) (ways type) hall
    (ways type - 1) (by omega)
  have hsub : ways type - 1 + 1 = ways type := by omega
  rw [hsub] at hfold
  obtain ⟨_, h2, h3⟩ := hfold
  have hlt := touched_way_lt c address type .LRU rnd
  refine ⟨ht, hlt, ?_, ?_, ?_⟩
  · rw [ht]
    exact h2
  · rw [ht]
    exact h3
  · rw [access_cache_apply]
    simp [hlt, hf]

theorem lru_miss_evicts_first_max_witness :
    ((access_cache stale_cache 0x20 .FOUR_WAY .LRU 0).2 = 0 ∧
      ∀ w, w < NUM_LINES / num_sets .FOUR_WAY →
        (stale_cache (set_index 0x20 .FOUR_WAY) w).valid ≠ 0) ∧
    touched_way stale_cache 0x20 .FOUR_WAY .LRU 0 = 0 ∧
    (access_cache stale_cache 0x20 .FOUR_WAY .LRU 0).1 (set_index 0x20 .FOUR_WAY)
      (touched_way stale_cache 0x20 .FOUR_WAY .LRU 0) =
      { tag := tag_of 0x20 .FOUR_WAY, valid := 1, counter := 0 } :=
  have hall : ∀ w, w < NUM_LINES / num_sets .FOUR_WAY →
      (stale_cache (set_index 0x20 .FOUR_WAY) w).valid ≠ 0 := by
    intro w _
    simp [stale_cache]
  ⟨⟨by decide, hall⟩, by decide,
    (lru_miss_evicts_first_max stale_cache 0x20 .FOUR_WAY 0 (by decide) hall).2.2.2.2⟩

/-! ## Direct-mapped determinism (C13) and geometry (C14) -/

theorem replacement_way_one (c : Cache) (set : Nat) (policy : ReplacementPolicy) (rnd : Nat) :
    replacement_way c set 1 policy rnd = 0 := by
  cases policy with
  | LRU => rfl
  | RANDOM => exact Nat.mod_one rnd

theorem direct_mapped_access_eq (c : Cache) (a : Nat) (p1 p2 : ReplacementPolicy)
    (r1 r2 : Nat) :
    access_cache c a .DIRECT_MAPPED p1 r1 = access_cache c a .DIRECT_MAPPED p2 r2 := by
  have hw : ways .DIRECT_MAPPED = 1 := by decide
  simp only [access_cache, hw, replacement_way_one]

theorem direct_mapped_run_eq (steps : List (Nat × ReplacementPolicy × Nat)) (c : Cache) :
    run_steps .DIRECT_MAPPED c steps = run_lru .DIRECT_MAPPED c (steps.map (fun x => x.1)) := by
  induction steps generalizing c with
  | nil => rfl
  | cons x xs ih =>
    simp only [run_steps, List.map_cons, run_lru]
    rw [direct_mapped_access_eq c x.1 x.2.1 .LRU x.2.2 0, ih]

/-- C13: for `DIRECT_MAPPED` the result of `access_cache` (returned value
and cache) is the same for every policy and every random draw, the way
overwritten on a miss is way 0, and the values returned along any sequence
of calls are those of the LRU run on the same addresses. -/
theorem direct_mapped_deterministic (c : Cache) (address : Nat) (rnd1 rnd2 : Nat)
    (policy : ReplacementPolicy) (steps : List (Nat × ReplacementPolicy × Nat)) :
    access_cache c address .DIRECT_MAPPED .LRU rnd1 =
      access_cache c address .DIRECT_MAPPED .RANDOM rnd2 ∧
    NUM_LINES / num_sets .DIRECT_MAPPED = 1 ∧
    replacement_way c (set_index address .DIRECT_MAPPED) (NUM_LINES / num_sets .DIRECT_MAPPED)
      policy rnd1 = 0 ∧
    run_steps .DIRECT_MAPPED c steps =
      run_lru .DIRECT_MAPPED c (steps.map (fun x => x.1)) :=
  ⟨direct_mapped_access_eq c address .LRU .RANDOM rnd1 rnd2, by decide,
    replacement_way_one c _ policy rnd1, direct_mapped_run_eq steps c⟩

/-- C14: for each cache type, `num_sets` times the number of ways scanned
(`NUM_LINES / num_sets`) equals `CACHE_SIZE / BLOCK_SIZE`, which is 8. -/
theorem sets_times_ways (type : CacheType) :
    num_sets type * (NUM_LINES / num_sets type) = CACHE_SIZE / BLOCK_SIZE ∧
    CACHE_SIZE / BLOCK_SIZE = 8 := by
  cases type <;> decide

/-! ## Effect of a miss (C15) and of a hit (C16) -/

/-- C17 (the code departs from the claim): two `TWO_WAY` caches that agree
on every valid flag and on the tag and counter of the one valid line, and
differ only in the counter of the invalid way 0 of set 0 (0 against 5),
return `0, 0` and `0, 1` on the same LRU trace, and the first miss
overwrites way 1 in the one and way 0 in the other. -/
theorem invalid_counter_changes_result :
    (∀ s w, (half_filled_cache s w).valid = (half_filled_cache_5 s w).valid ∧
      (half_filled_cache s w).tag = (half_filled_cache_5 s w).tag ∧
      ((half_filled_cache s w).valid ≠ 0 →
        (half_filled_cache s w).counter = (half_filled_cache_5 s w).counter)) ∧
    (run_lru .TWO_WAY half_filled_cache [0x00, 0x1c0]).2 = [0, 0] ∧
    (run_lru .TWO_WAY half_filled_cache_5 [0x00, 0x1c0]).2 = [0, 1] ∧
    touched_way half_filled_cache 0x00 .TWO_WAY .LRU 0 = 1 ∧
    touched_way half_filled_cache_5 0x00 .TWO_WAY .LRU 0 = 0 := by
  refine ⟨?_, by decide, by decide, by decide, by decide⟩
  intro s w
  unfold half_filled_cache half_filled_cache_5
  by_cases h1 : s = 0 ∧ w = 1
  · simp [h1]
  · by_cases h2 : s = 0 ∧ w = 0
    · simp [h2]
    · simp [h1, h2]

/-! ## Block granularity (C18) -/

theorem set_index_eq_mod (a : Nat) (type : CacheType) :
    set_index a type = (a >>> 2) % 2 ^ set_bits type := by
  unfold set_index
  rw [Nat.one_shiftLeft, Nat.and_pow_two_sub_one_eq_mod]

theorem tag_of_eq_div (a : Nat) (type : CacheType) :
    tag_of a type = (a >>> 2) / 2 ^ set_bits type := by
  unfold tag_of
  rw [Nat.shiftRight_add, Nat.shiftRight_eq_div_pow (a >>> 2)]

theorem decode_eq_iff (a b : Nat) (type : CacheType) :
    (set_index a type = set_index b type ∧ tag_of a type = tag_of b type) ↔
      a >>> 2 = b >>> 2 := by
  rw [set_index_eq_mod, set_index_eq_mod, tag_of_eq_div, tag_of_eq_div]
  constructor
  · rintro ⟨h1, h2⟩
    rw [← Nat.div_add_mod (a >>> 2) (2 ^ set_bits type),
      ← Nat.div_add_mod (b >>> 2) (2 ^ set_bits type), h1, h2]
  · intro h
    rw [h]
    exact ⟨rfl, rfl⟩

theorem access_cache_congr (c : Cache) (a b : Nat) (type : CacheType)
    (policy : ReplacementPolicy) (rnd : Nat)
    (hs : set_index a type = set_index b type) (ht : tag_of a type = tag_of b type) :
    access_cache c a type policy rnd = access_cache c b type policy rnd := by
  simp only [access_cache, hs, ht]

/-- C18: two addresses decode to the same set index and the same tag
exactly when they agree above the two offset bits (`a >> 2 = b >> 2`); for
such addresses `access_cache` gives the same result on every cache, and an
access to `b` right after an access to `a` is a hit. -/
theorem same_block_iff (a b : Nat) (type : CacheType) (c : Cache)
    (policy : ReplacementPolicy) (rnd1 rnd2 : Nat) :
    ((set_index a type = set_index b type ∧ tag_of a type = tag_of b type) ↔
      a >>> 2 = b >>> 2) ∧
    (a >>> 2 = b >>> 2 →
      access_cache c a type policy rnd1 = access_cache c b type policy rnd1 ∧
      (access_cache (access_cache c a type policy rnd1).1 b type policy rnd2).2 = 1) := by
  refine ⟨decode_eq_iff a b type, ?_⟩
  intro h
  obtain ⟨hs, ht⟩ := (decode_eq_iff a b type).mpr h
  refine ⟨access_cache_congr c a b type policy rnd1 hs ht, ?_⟩
  rw [← access_cache_congr (access_cache c a type policy rnd1).1 a b type policy rnd2 hs ht,
    ret_eq_one_iff]
  exact ⟨touched_way c a type policy rnd1, touched_way_lt _ _ _ _ _,
    touched_line_after c a type policy rnd1⟩

theorem same_block_iff_witness :
    0x21 >>> 2 = 0x23 >>> 2 ∧
    (access_cache (access_cache stale_cache 0x21 .TWO_WAY .RANDOM 7).1 0x23
      .TWO_WAY .RANDOM 4).2 = 1 :=
  ⟨by decide,
    ((same_block_iff 0x21 0x23 .TWO_WAY stale_cache .RANDOM 7 4).2 (by decide)).2⟩

/-! ## Counters of invalid lines in reachable states (C19) -/

theorem age_inv_access (c : Cache) (a : Nat) (type : CacheType) (policy : ReplacementPolicy)
    (rnd s : Nat) (k : Int) (h : age_inv c s (ways type) k) :
    age_inv (access_cache c a type policy rnd).1 s (ways type)
      (k + (if set_index a type = s then 1 else 0)) := by
  obtain ⟨hk, h⟩ := h
  refine ⟨by split <;> omega, ?_⟩
  intro w hw
  obtain ⟨h1, h2⟩ := h w hw
  by_cases hs : set_index a type = s
  · subst hs
    rw [if_pos rfl]
    by_cases hwt : w = touched_way c a type policy rnd
    · subst hwt
      have hv := (touched_line_after c a type policy rnd).1
      have hc := counter_touched c a type policy rnd
      refine ⟨fun h0 => absurd h0 hv, fun _ => ?_⟩
      rw [hc]
      omega
    · obtain ⟨hc, hv⟩ := counter_other c a type policy rnd w hw hwt
      rw [hc, hv]
      refine ⟨fun h0 => ?_, fun hne => ?_⟩
      · rw [h1 h0]
      · have := h2 hne
        omega
  · rw [if_neg hs, other_set_unchanged c a type policy rnd s w (fun h => hs h.symm)]
    simpa using ⟨h1, h2⟩

theorem run_lru_cons (type : CacheType) (c : Cache) (a : Nat) (rest : List Nat) :
    run_lru type c (a :: rest) =
      ((run_lru type (access_cache c a type .LRU 0).1 rest).1,
        (access_cache c a type .LRU 0).2 ::
          (run_lru type (access_cache c a type .LRU 0).1 rest).2) := rfl

theorem age_inv_run (type : CacheType) (s : Nat) (trace : List Nat) (c : Cache) (k : Nat)
    (h : age_inv c s (ways type) k) :
    age_inv (run_lru type c trace).1 s (ways type) ((k + accesses_to type s trace : Nat) : Int) := by
  induction trace generalizing c k with
  | nil => simpa [run_lru, accesses_to] using h
  | cons a rest ih =>
    rw [run_lru_cons]
    have hstep := age_inv_access c a type .LRU 0 s k h
    by_cases hs : set_index a type = s
    · rw [if_pos hs] at hstep
      have h2 := ih (access_cache c a type .LRU 0).1 (k + 1) (by exact_mod_cast hstep)
      have hcount : accesses_to type s (a :: rest) = accesses_to type s rest + 1 := by
        simp [accesses_to, List.countP_cons, hs]
      rw [hcount]
      have he : k + 1 + accesses_to type s rest = k + (accesses_to type s rest + 1) := by omega
      rw [← he]
      exact h2
    · rw [if_neg hs] at hstep
      have h2 := ih (access_cache c a type .LRU 0).1 k (by simpa using hstep)
      have hcount : accesses_to type s (a :: rest) = accesses_to type s rest := by
        simp [accesses_to, List.countP_cons, hs]
      rw [hcount]
      exact h2

theorem age_inv_init (c0 : Cache) (m n s k : Nat) (hs : s < m) (hk : k ≤ n) :
    age_inv (init_cache c0 m n) s k 0 := by
  refine ⟨le_refl _, ?_⟩
  intro w hw
  obtain ⟨hv, hc⟩ := init_cache_invalid c0 m n s w hs (Nat.lt_of_lt_of_le hw hk)
  exact ⟨fun _ => hc, fun hne => absurd hv hne⟩

theorem invalid_oldest_of_age_inv (c : Cache) (s n : Nat) (k : Int) (h : age_inv c s n k) :
    invalid_oldest c s n := by
  intro i j hi hj hvi hvj
  have h1 := (h.2 i hi).1 hvi
  have h2 := (h.2 j hj).2 hvj
  omega

theorem lru_victim_invalid (c : Cache) (a : Nat) (type : CacheType) (rnd : Nat)
    (hmiss : (access_cache c a type .LRU rnd).2 = 0)
    (hold : invalid_oldest c (set_index a type) (ways type))
    (hinv : ∃ i, i < ways type ∧ (c (set_index a type) i).valid = 0) :
    (c (set_index a type) (touched_way c a type .LRU rnd)).valid = 0 := by
  have hf := find_hit_of_ret_zero c a type .LRU rnd hmiss
  have ht : touched_way c a type .LRU rnd =
      lru_replacement c (set_index a type) (ways type) := by
    simp only [touched_way, hf, replacement_way]
  have hpos := ways_pos type
  have hfold := lru_fold_highest_invalid c (set_index a type) (ways type) hold
    (ways type - 1) (by omega)
  have hsub : ways type - 1 + 1 = ways type := by omega
  rw [hsub] at hfold
  rw [ht]
  exact hfold.2.2 hinv

/-! ## Counters stay in the range of `int` on bounded traces -/

theorem accesses_to_take_le (type : CacheType) (s : Nat) (trace : List Nat) (k : Nat) :
    accesses_to type s (trace.take k) ≤ accesses_to type s trace := by
  unfold accesses_to
  exact (List.take_sublist k trace).countP_le _

theorem traced_fold_cache (type : CacheType) (trace : List Nat) (t : Traced) :
    (trace.foldl (traced_access type) t).cache = (run_lru type t.cache trace).1 := by
  induction trace generalizing t with
  | nil => rfl
  | cons a rest ih =>
    rw [List.foldl_cons, ih, run_lru_cons]
    rfl

theorem traced_run_cache (type : CacheType) (c : Cache) (trace : List Nat) :
    (traced_run type c trace).cache = (run_lru type c trace).1 :=
  traced_fold_cache type trace _

/-- In a set cleared by `init_cache`, after any prefix of an LRU trace with
at most `INT_MAX` accesses to the set, every counter of the set is between 0
and `INT_MAX`: no `counter += 1` made in the set has overflowed. -/
theorem counters_in_range (type : CacheType) (c0 : Cache) (m n : Nat) (trace : List Nat)
    (s k w : Nat) (hs : s < m) (hn : ways type ≤ n)
    (hbound : (accesses_to type s trace : Int) ≤ INT_MAX) (hw : w < ways type) :
    0 ≤ ((run_lru type (init_cache c0 m n) (trace.take k)).1 s w).counter ∧
    ((run_lru type (init_cache c0 m n) (trace.take k)).1 s w).counter ≤ INT_MAX := by
  have hinit : age_inv (init_cache c0 m n) s (ways type) ((0 : Nat) : Int) :=
    age_inv_init c0 m n s (ways type) hs hn
  have hrun := age_inv_run type s (trace.take k) (init_cache c0 m n) 0 hinit
  rw [Nat.zero_add] at hrun
  have hle : (accesses_to type s (trace.take k) : Int) ≤ accesses_to type s trace := by
    exact_mod_cast accesses_to_take_le type s trace k
  obtain ⟨h0, hall⟩ := hrun
  obtain ⟨h1, h2⟩ := hall w hw
  by_cases hv : ((run_lru type (init_cache c0 m n) (trace.take k)).1 s w).valid = 0
  · rw [h1 hv]
    exact ⟨h0, le_trans hle hbound⟩
  · have := h2 hv
    constructor
    · exact this.1
    · have h3 := le_trans hle hbound
      omega

/-! ## LRU recency order on bounded traces (C7) -/

/-- C7: after an LRU trace applied to an initialised cache, with at most
`INT_MAX` accesses to the set (so that no counter of the set overflows), two
valid lines of one initialised set each have a most recent access, the one
accessed later has the strictly smaller counter, and the counters of two
different valid lines differ; along the whole trace every counter of the set
stays between 0 and `INT_MAX`. -/
theorem lru_recency_order (type : CacheType) (c0 : Cache) (m n : Nat) (trace : List Nat)
    (s i j : Nat) (hs : s < m) (hn : NUM_LINES / num_sets type ≤ n)
    (hbound : (accesses_to type s trace : Int) ≤ INT_MAX)
    (hi : i < NUM_LINES / num_sets type) (hj : j < NUM_LINES / num_sets type)
    (hvi : ((traced_run type (init_cache c0 m n) trace).cache s i).valid ≠ 0)
    (hvj : ((traced_run type (init_cache c0 m n) trace).cache s j).valid ≠ 0) :
    (∃ ki kj,
      (traced_run type (init_cache c0 m n) trace).last s i = some ki ∧
      (traced_run type (init_cache c0 m n) trace).last s j = some kj ∧
      (kj < ki →
        ((traced_run type (init_cache c0 m n) trace).cache s i).counter <
          ((traced_run type (init_cache c0 m n) trace).cache s j).counter)) ∧
    (i ≠ j →
      ((traced_run type (init_cache c0 m n) trace).cache s i).counter ≠
        ((traced_run type (init_cache c0 m n) trace).cache s j).counter) ∧
    (∀ k w, w < NUM_LINES / num_sets type →
      0 ≤ ((traced_run type (init_cache c0 m n) (trace.take k)).cache s w).counter ∧
      ((traced_run type (init_cache c0 m n) (trace.take k)).cache s w).counter ≤ INT_MAX) := by
  have hn' : ways type ≤ n := hn
  have hinit : ∀ w, w < ways type → (init_cache c0 m n s w).valid = 0 := fun w hw =>
    (init_cache_invalid c0 m n s w hs (Nat.lt_of_lt_of_le hw hn')).1
  obtain ⟨ha, _, _, hd, he⟩ := recency_inv_run type s (init_cache c0 m n) trace hinit
  obtain ⟨ki, hki⟩ := ha i hi hvi
  obtain ⟨kj, hkj⟩ := ha j hj hvj
  refine ⟨⟨ki, kj, hki, hkj, hd i j ki kj hi hj hki hkj⟩, ?_, ?_⟩
  · intro hij
    have hk : ki ≠ kj := by
      intro heq
      rw [heq] at hki
      exact hij (he i j kj hki hkj)
    rcases Nat.lt_or_gt_of_ne hk with hlt | hgt
    · have := hd j i kj ki hj hi hkj hki hlt
      omega
    · have := hd i j ki kj hi hj hki hkj hgt
      omega
  · intro k w hw
    rw [traced_run_cache]
    exact counters_in_range type c0 m n trace s k w hs hn' hbound hw

theorem lru_recency_order_witness :
    (0 < 2 ∧ NUM_LINES / num_sets .FOUR_WAY ≤ 4 ∧
      (accesses_to .FOUR_WAY 0 [0x00, 0x20] : Int) ≤ INT_MAX ∧
      2 < NUM_LINES / num_sets .FOUR_WAY ∧ 3 < NUM_LINES / num_sets .FOUR_WAY ∧
      ((traced_run .FOUR_WAY (init_cache stale_cache 2 4) [0x00, 0x20]).cache 0 2).valid ≠ 0 ∧
      ((traced_run .FOUR_WAY (init_cache stale_cache 2 4) [0x00, 0x20]).cache 0 3).valid ≠ 0) ∧
    ((∃ ki kj,
      (traced_run .FOUR_WAY (init_cache stale_cache 2 4) [0x00, 0x20]).last 0 2 = some ki ∧
      (traced_run .FOUR_WAY (init_cache stale_cache 2 4) [0x00, 0x20]).last 0 3 = some kj ∧
      (kj < ki →
        ((traced_run .FOUR_WAY (init_cache stale_cache 2 4) [0x00, 0x20]).cache 0 2).counter <
          ((traced_run .FOUR_WAY (init_cache stale_cache 2 4) [0x00, 0x20]).cache 0 3).counter)) ∧
    (2 ≠ 3 →
      ((traced_run .FOUR_WAY (init_cache stale_cache 2 4) [0x00, 0x20]).cache 0 2).counter ≠
        ((traced_run .FOUR_WAY (init_cache stale_cache 2 4) [0x00, 0x20]).cache 0 3).counter)) :=
  ⟨⟨by decide, by decide, by decide, by decide, by decide, by decide, by decide⟩,
    (lru_recency_order .FOUR_WAY stale_cache 2 4 [0x00, 0x20] 0 2 3 (by decide) (by decide)
      (by decide) (by decide) (by decide) (by decide) (by decide)).1,
    (lru_recency_order .FOUR_WAY stale_cache 2 4 [0x00, 0x20] 0 2 3 (by decide) (by decide)
      (by decide) (by decide) (by decide) (by decide) (by decide)).2.1⟩

/-! ## Invalid lines on bounded traces (C19) -/

/-- C19: in every state reached from `init_cache` by an LRU trace with at
most `INT_MAX` accesses to an initialised set (so that no counter of the set
overflows), every invalid line's counter equals the number of accesses made
to that set and is strictly greater than the counter of every valid line of
the set; a miss in that set overwrites a valid line only when every way of
the set is valid; and along the whole trace every counter of the set stays
between 0 and `INT_MAX`. -/
theorem invalid_counters_dominate (type : CacheType) (c0 : Cache) (m n : Nat)
    (trace : List Nat) (s : Nat) (hs : s < m) (hn : NUM_LINES / num_sets type ≤ n)
    (hbound : (accesses_to type s trace : Int) ≤ INT_MAX) :
    (∀ i, i < NUM_LINES / num_sets type →
      ((run_lru type (init_cache c0 m n) trace).1 s i).valid = 0 →
      ((run_lru type (init_cache c0 m n) trace).1 s i).counter =
        (accesses_to type s trace : Int)) ∧
    (∀ i j, i < NUM_LINES / num_sets type → j < NUM_LINES / num_sets type →
      ((run_lru type (init_cache c0 m n) trace).1 s i).valid = 0 →
      ((run_lru type (init_cache c0 m n) trace).1 s j).valid ≠ 0 →
      ((run_lru type (init_cache c0 m n) trace).1 s j).counter <
        ((run_lru type (init_cache c0 m n) trace).1 s i).counter) ∧
    (∀ a rnd, set_index a type = s →
      (access_cache (run_lru type (init_cache c0 m n) trace).1 a type .LRU rnd).2 = 0 →
      ((run_lru type (init_cache c0 m n) trace).1 s
        (touched_way (run_lru type (init_cache c0 m n) trace).1 a type .LRU rnd)).valid ≠ 0 →
      ∀ w, w < NUM_LINES / num_sets type →
        ((run_lru type (init_cache c0 m n) trace).1 s w).valid ≠ 0) ∧
    (∀ k w, w < NUM_LINES / num_sets type →
      0 ≤ ((run_lru type (init_cache c0 m n) (trace.take k)).1 s w).counter ∧
      ((run_lru type (init_cache c0 m n) (trace.take k)).1 s w).counter ≤ INT_MAX) := by
  have hn' : ways type ≤ n := hn
  have hinit : age_inv (init_cache c0 m n) s (ways type) ((0 : Nat) : Int) :=
    age_inv_init c0 m n s (ways type) hs hn
  have hrun := age_inv_run type s trace (init_cache c0 m n) 0 hinit
  rw [Nat.zero_add] at hrun
  refine ⟨?_, ?_, ?_, fun k w hw => counters_in_range type c0 m n trace s k w hs hn' hbound hw⟩
  · intro i hi hv
    exact (hrun.2 i hi).1 hv
  · intro i j hi hj hvi hvj
    have h1 := (hrun.2 i hi).1 hvi
    have h2 := (hrun.2 j hj).2 hvj
    omega
  · intro a rnd hsa hmiss hvict w hw hv
    subst hsa
    exact hvict (lru_victim_invalid _ a type rnd hmiss
      (invalid_oldest_of_age_inv _ _ _ _ hrun) ⟨w, hw, hv⟩)

theorem invalid_counters_dominate_witness :
    (0 < 2 ∧ NUM_LINES / num_sets .FOUR_WAY ≤ 4 ∧
      (accesses_to .FOUR_WAY 0 [0x00, 0x10, 0x20] : Int) ≤ INT_MAX) ∧
    ((run_lru .FOUR_WAY (init_cache stale_cache 2 4) [0x00, 0x10, 0x20]).1 0 0).valid = 0 ∧
    accesses_to .FOUR_WAY 0 [0x00, 0x10, 0x20] = 2 ∧
    ((run_lru .FOUR_WAY (init_cache stale_cache 2 4) [0x00, 0x10, 0x20]).1 0 0).counter =
      (accesses_to .FOUR_WAY 0 [0x00, 0x10, 0x20] : Int) :=
  ⟨⟨by decide, by decide, by decide⟩, by decide, by decide,
    (invalid_counters_dominate .FOUR_WAY stale_cache 2 4 [0x00, 0x10, 0x20] 0
      (by decide) (by decide) (by decide)).1 0 (by decide) (by decide)⟩

/-! ## Alternating trace on the fully associative cache (C12) -/

theorem present_after_hit (c : Cache) (a b : Nat) (type : CacheType)
    (policy : ReplacementPolicy) (rnd : Nat) (ha : present c a type) (hb : present c b type) :
    present (access_cache c a type policy rnd).1 b type := by
  obtain ⟨i, hi, hv, ht⟩ := hb
  have hhit : (access_cache c a type policy rnd).2 = 1 := (ret_eq_one_iff c a type policy rnd).mpr ha
  rcases line_after_access c a type policy rnd (set_index b type) i with ⟨h1, h2⟩ | ⟨_, _, hf, _⟩
  · exact ⟨i, hi, by rw [h1]; exact hv, by rw [h2]; exact ht⟩
  · rw [access_cache_ret, hf] at hhit
    simp at hhit

theorem alternating_hits (type : CacheType) (k : Nat) (c : Cache) (a b : Nat)
    (ha : present c a type) (hb : present c b type) :
    (run_lru type c (alternating a b k)).2 = List.replicate k 1 := by
  induction k generalizing c a b with
  | zero => rfl
  | succ k ih =>
    simp only [alternating, run_lru_cons, List.replicate_succ]
    rw [(ret_eq_one_iff c a type .LRU 0).mpr ha,
      ih (access_cache c a type .LRU 0).1 b a
        (present_after_hit c a b type .LRU 0 ha hb)
        (present_after_hit c a a type .LRU 0 ha ha)]

theorem set_index_fully_associative (a : Nat) : set_index a .FULLY_ASSOCIATIVE = 0 := by
  simp [set_index, set_bits]

theorem tag_of_fully_associative (a : Nat) : tag_of a .FULLY_ASSOCIATIVE = a >>> 2 := by
  simp [tag_of, set_bits]

/-- On a set whose ways are all invalid with counter 0, two LRU accesses with
different tags both miss and leave both tags in the set. -/
theorem two_cold_misses (type : CacheType) (c : Cache) (a b : Nat)
    (hset : set_index a type = set_index b type) (htag : tag_of a type ≠ tag_of b type)
    (hways : 2 ≤ ways type)
    (hc : ∀ w, w < ways type →
      (c (set_index a type) w).valid = 0 ∧ (c (set_index a type) w).counter = 0) :
    (access_cache c a type .LRU 0).2 = 0 ∧
    (access_cache (access_cache c a type .LRU 0).1 b type .LRU 0).2 = 0 ∧
    present (access_cache (access_cache c a type .LRU 0).1 b type .LRU 0).1 a type ∧
    present (access_cache (access_cache c a type .LRU 0).1 b type .LRU 0).1 b type := by
  have hmiss1 : (access_cache c a type .LRU 0).2 = 0 := by
    rw [ret_eq_zero_iff]
    rintro ⟨i, hi, hv, _⟩
    exact hv (hc i hi).1
  have hf1 := find_hit_of_ret_zero c a type .LRU 0 hmiss1
  have hv1lt := touched_way_lt c a type .LRU 0
  have hline1 := touched_line_after c a type .LRU 0
  have hcnt1 := counter_touched c a type .LRU 0
  generalize hv1 : touched_way c a type .LRU 0 = v1 at hv1lt hline1 hcnt1
  have hother : ∀ w, w < ways type → w ≠ v1 →
      ((access_cache c a type .LRU 0).1 (set_index a type) w).valid = 0 ∧
      ((access_cache c a type .LRU 0).1 (set_index a type) w).counter = 1 := by
    intro w hw hne
    obtain ⟨h1, h2⟩ := counter_other c a type .LRU 0 w hw (by rw [hv1]; exact hne)
    rw [h1, h2, (hc w hw).1, (hc w hw).2]
    exact ⟨rfl, rfl⟩
  generalize hc1 : (access_cache c a type .LRU 0).1 = c1 at hline1 hcnt1 hother ⊢
  have hvalid_iff : ∀ w, w < ways type → (c1 (set_index a type) w).valid ≠ 0 → w = v1 := by
    intro w hw hv
    by_contra hne
    exact hv (hother w hw hne).1
  have hmiss2 : (access_cache c1 b type .LRU 0).2 = 0 := by
    rw [ret_eq_zero_iff]
    rintro ⟨i, hi, hv, ht⟩
    rw [← hset] at hv ht
    have := hvalid_iff i hi hv
    subst this
    rw [hline1.2] at ht
    exact htag ht
  have hold : invalid_oldest c1 (set_index b type) (ways type) := by
    rw [← hset]
    intro i j hi hj hvi hvj
    have hj1 := hvalid_iff j hj hvj
    subst hj1
    have hi1 : i ≠ j := by
      intro h
      rw [h] at hvi
      exact hvj hvi
    rw [hcnt1, (hother i hi hi1).2]
    decide
  have hinv : ∃ i, i < ways type ∧ (c1 (set_index b type) i).valid = 0 := by
    rw [← hset]
    by_cases h0 : v1 = 0
    · exact ⟨1, by omega, (hother 1 (by omega) (by omega)).1⟩
    · exact ⟨0, by omega, (hother 0 (by omega) (fun h => h0 h.symm)).1⟩
  have hvict := lru_victim_invalid c1 b type 0 hmiss2 hold hinv
  have hne : v1 ≠ touched_way c1 b type .LRU 0 := by
    intro h
    rw [← h, ← hset] at hvict
    exact hline1.1 hvict
  refine ⟨hmiss1, hmiss2, ?_, ?_⟩
  · refine ⟨v1, hv1lt, ?_, ?_⟩
    · rw [hset, (counter_other c1 b type .LRU 0 v1 hv1lt hne).2, ← hset]
      exact hline1.1
    · rcases line_after_access c1 b type .LRU 0 (set_index a type) v1 with
        ⟨_, h2⟩ | ⟨_, hw, _, _⟩
      · rw [h2]
        exact hline1.2
      · exact absurd hw hne
  · exact ⟨touched_way c1 b type .LRU 0, touched_way_lt _ _ _ _ _,
      touched_line_after c1 b type .LRU 0⟩

/-- C12: on a freshly initialised `FULLY_ASSOCIATIVE` cache with policy LRU
and two addresses with `a >> 2 != b >> 2`, the alternating trace
`a, b, a, b, ...` returns 0 for its first two calls and 1 for every later
call; every address selects set 0 for this type. -/
theorem alternating_fully_associative (c0 : Cache) (m n a b k : Nat)
    (hm : 0 < m) (hn : NUM_LINES / num_sets .FULLY_ASSOCIATIVE ≤ n)
    (hab : a >>> 2 ≠ b >>> 2) :
    (run_lru .FULLY_ASSOCIATIVE (init_cache c0 m n) (alternating a b (k + 2))).2 =
      0 :: 0 :: List.replicate k 1 ∧
    ∀ x, set_index x .FULLY_ASSOCIATIVE = 0 := by
  refine ⟨?_, set_index_fully_associative⟩
  have hn' : ways .FULLY_ASSOCIATIVE ≤ n := hn
  have hset : set_index a .FULLY_ASSOCIATIVE = set_index b .FULLY_ASSOCIATIVE := by
    rw [set_index_fully_associative, set_index_fully_associative]
  have htag : tag_of a .FULLY_ASSOCIATIVE ≠ tag_of b .FULLY_ASSOCIATIVE := by
    rw [tag_of_fully_associative, tag_of_fully_associative]
    exact hab
  have hc : ∀ w, w < ways .FULLY_ASSOCIATIVE →
      (init_cache c0 m n (set_index a .FULLY_ASSOCIATIVE) w).valid = 0 ∧
      (init_cache c0 m n (set_index a .FULLY_ASSOCIATIVE) w).counter = 0 := by
    intro w hw
    rw [set_index_fully_associative]
    exact init_cache_invalid c0 m n 0 w hm (Nat.lt_of_lt_of_le hw hn')
  obtain ⟨h1, h2, h3, h4⟩ :=
    two_cold_misses .FULLY_ASSOCIATIVE (init_cache c0 m n) a b hset htag (by decide) hc
  simp only [alternating, run_lru_cons]
  rw [h1, h2, alternating_hits .FULLY_ASSOCIATIVE k _ a b h3 h4]

theorem alternating_fully_associative_witness :
    (0 < 1 ∧ NUM_LINES / num_sets .FULLY_ASSOCIATIVE ≤ 8 ∧ 0x10 >>> 2 ≠ 0x24 >>> 2) ∧
    (run_lru .FULLY_ASSOCIATIVE (init_cache stale_cache 1 8) (alternating 0x10 0x24 (3 + 2))).2 =
      0 :: 0 :: List.replicate 3 1 :=
  ⟨⟨by decide, by decide, by decide⟩,
    (alternating_fully_associative stale_cache 1 8 0x10 0x24 3 (by decide) (by decide)
      (by decide)).1⟩

/-! ## Refinement of the reference LRU model (C20) -/

theorem row_rel_congr (c c' : Cache) (s n : Nat) (l : List Nat)
    (h : ∀ w, c' s w = c s w) (hr : row_rel c s n l) : row_rel c' s n l := by
  have hrow : c' s = c s := funext h
  unfold row_rel age_inv at *
  rw [hrow]
  exact hr

/-- The list of valid ways after an access that touches way `v`: `v`
followed by the surviving valid ways `W0`, in the old order. -/
theorem row_rel_touch (c c' : Cache) (s n v t : Nat) (W0 : List Nat)
    (hage : ∃ k, age_inv c' s n k)
    (hv : v < n) (hvv : (c' s v).valid ≠ 0) (hvt : (c' s v).tag = t)
    (hvc : (c' s v).counter = 0)
    (hoth : ∀ w, w < n → w ≠ v →
      (c' s w).valid = (c s w).valid ∧ (c' s w).tag = (c s w).tag ∧
      (c' s w).counter = (c s w).counter + 1)
    (hW0 : ∀ w, w ∈ W0 ↔ w < n ∧ w ≠ v ∧ (c s w).valid ≠ 0)
    (hnn : ∀ w, w ∈ W0 → 0 ≤ (c s w).counter)
    (hpw : W0.Pairwise (fun x y => (c s x).counter < (c s y).counter))
    (hnd : (W0.map (fun w => (c s w).tag)).Nodup)
    (ht : t ∉ W0.map (fun w => (c s w).tag)) :
    row_rel c' s n (t :: W0.map (fun w => (c s w).tag)) := by
  refine ⟨hage, v :: W0, ?_, ?_, ?_, ?_⟩
  · intro w
    rw [List.mem_cons, hW0]
    by_cases hwv : w = v
    · subst hwv
      simp [hv, hvv]
    · constructor
      · rintro (h | ⟨h1, _, h3⟩)
        · exact absurd h hwv
        · exact ⟨h1, by rw [(hoth w h1 hwv).1]; exact h3⟩
      · rintro ⟨h1, h2⟩
        right
        exact ⟨h1, hwv, by rw [← (hoth w h1 hwv).1]; exact h2⟩
  · rw [List.map_cons, hvt]
    congr 1
    apply List.map_congr_left
    intro w hw
    obtain ⟨h1, h2, _⟩ := (hW0 w).mp hw
    exact ((hoth w h1 h2).2.1).symm
  · exact List.nodup_cons.mpr ⟨ht, hnd⟩
  · rw [List.pairwise_cons]
    constructor
    · intro w hw
      obtain ⟨h1, h2, _⟩ := (hW0 w).mp hw
      rw [hvc, (hoth w h1 h2).2.2]
      have := hnn w hw
      omega
    · apply List.Pairwise.imp_of_mem _ hpw
      intro x y hx hy hxy
      obtain ⟨hx1, hx2, _⟩ := (hW0 x).mp hx
      obtain ⟨hy1, hy2, _⟩ := (hW0 y).mp hy
      rw [(hoth x hx1 hx2).2.2, (hoth y hy1 hy2).2.2]
      omega

/-- Erasing commutes with a map that is injective on the list. -/
theorem map_erase_of_nodup (f : Nat → Nat) (l : List Nat) (x : Nat) (hx : x ∈ l)
    (hnd : (l.map f).Nodup) : (l.erase x).map f = (l.map f).erase (f x) := by
  induction l with
  | nil => simp at hx
  | cons y ys ih =>
    rw [List.map_cons, List.nodup_cons] at hnd
    by_cases hyx : y = x
    · subst hyx
      simp
    · have hxys : x ∈ ys := by
        rcases List.mem_cons.mp hx with h | h
        · exact absurd h.symm hyx
        · exact h
      have hf : f y ≠ f x := by
        intro h
        apply hnd.1
        rw [h]
        exact List.mem_map_of_mem f hxys
      rw [List.erase_cons_tail (by simpa using hyx), List.map_cons, List.map_cons,
        List.erase_cons_tail (by simpa using hf), ih hxys hnd.2]

theorem length_lt_of_missing (W : List Nat) (n w0 : Nat) (hnd : W.Nodup)
    (hW : ∀ w, w ∈ W → w < n) (hw0 : w0 < n) (hmiss : w0 ∉ W) : W.length < n := by
  have hsub : W ⊆ (List.range n).erase w0 := by
    intro w hw
    rw [(List.nodup_range n).mem_erase_iff]
    refine ⟨?_, List.mem_range.mpr (hW w hw)⟩
    intro h
    rw [h] at hw
    exact hmiss hw
  have hle := (List.subperm_of_subset hnd hsub).length_le
  rw [List.length_erase_of_mem (List.mem_range.mpr hw0), List.length_range] at hle
  omega

theorem length_ge_of_full (W : List Nat) (n : Nat) (hW : ∀ w, w < n → w ∈ W) :
    n ≤ W.length := by
  have hsub : List.range n ⊆ W := by
    intro w hw
    exact hW w (List.mem_range.mp hw)
  have hle := (List.subperm_of_subset (List.nodup_range n) hsub).length_le
  rw [List.length_range] at hle
  exact hle

theorem lru_victim_max (c : Cache) (a : Nat) (type : CacheType) (rnd : Nat)
    (hmiss : (access_cache c a type .LRU rnd).2 = 0)
    (hall : ∀ w, w < ways type → (c (set_index a type) w).valid ≠ 0) :
    ∀ j, j < ways type →
      (c (set_index a type) j).counter ≤
        (c (set_index a type) (touched_way c a type .LRU rnd)).counter := by
  have hf := find_hit_of_ret_zero c a type .LRU rnd hmiss
  have ht : touched_way c a type .LRU rnd =
      lru_replacement c (set_index a type) (ways type) := by
    simp only [touched_way, hf, replacement_way]
  have hpos := ways_pos type
  have hfold := lru_fold_first_max c (set_index a type) (ways type) hall
    (ways type - 1) (by omega)
  have hsub : ways type - 1 + 1 = ways type := by omega
  rw [hsub] at hfold
  rw [ht]
  exact hfold.2.1

theorem other_lines_after (c : Cache) (a : Nat) (type : CacheType) (policy : ReplacementPolicy)
    (rnd w : Nat) (hw : w < ways type) (hne : w ≠ touched_way c a type policy rnd) :
    ((access_cache c a type policy rnd).1 (set_index a type) w).valid =
      (c (set_index a type) w).valid ∧
    ((access_cache c a type policy rnd).1 (set_index a type) w).tag =
      (c (set_index a type) w).tag ∧
    ((access_cache c a type policy rnd).1 (set_index a type) w).counter =
      (c (set_index a type) w).counter + 1 := by
  obtain ⟨h1, h2⟩ := counter_other c a type policy rnd w hw hne
  refine ⟨h2, ?_, h1⟩
  rw [access_cache_apply]
  simp [hw, hne]

/-- One LRU access of the code on a row that represents the list `l`
returns what the reference model returns and leaves a row that represents
the reference model's new list. -/
theorem row_rel_access (c : Cache) (a : Nat) (type : CacheType) (l : List Nat)
    (hr : row_rel c (set_index a type) (ways type) l) :
    (access_cache c a type .LRU 0).2 = (ref_touch (ways type) l (tag_of a type)).2 ∧
    row_rel (access_cache c a type .LRU 0).1 (set_index a type) (ways type)
      (ref_touch (ways type) l (tag_of a type)).1 := by
  obtain ⟨⟨k, hage⟩, W, hW, hl, hnd, hpw⟩ := hr
  have hage' : ∃ k', age_inv (access_cache c a type .LRU 0).1 (set_index a type) (ways type) k' :=
    ⟨_, age_inv_access c a type .LRU 0 (set_index a type) k hage⟩
  have hv := touched_way_lt c a type .LRU 0
  obtain ⟨hvv, hvt⟩ := touched_line_after c a type .LRU 0
  have hvc := counter_touched c a type .LRU 0
  have hoth := fun w hw hne => other_lines_after c a type .LRU 0 w hw hne
  have hmapnd : (W.map (fun w => (c (set_index a type) w).tag)).Nodup := hl ▸ hnd
  have hWnd : W.Nodup := List.Nodup.of_map _ hmapnd
  have hnnW : ∀ w, w ∈ W → 0 ≤ (c (set_index a type) w).counter := by
    intro w hw
    obtain ⟨h1, h2⟩ := (hW w).mp hw
    exact ((hage.2 w h1).2 h2).1
  cases hf : find_hit c (set_index a type) (tag_of a type) (ways type) with
  | some i =>
    obtain ⟨hi, hiv, hit⟩ := find_hit_eq_some _ _ _ _ _ hf
    have hvi : touched_way c a type .LRU 0 = i := by simp only [touched_way, hf]
    rw [hvi] at hv hvv hvt hvc hoth
    have hiW : i ∈ W := (hW i).mpr ⟨hi, hiv⟩
    have htl : tag_of a type ∈ l := by
      rw [hl]
      exact List.mem_map.mpr ⟨i, hiW, hit⟩
    have href : ref_touch (ways type) l (tag_of a type) =
        (tag_of a type :: l.erase (tag_of a type), 1) := by
      simp [ref_touch, htl]
    have hret : (access_cache c a type .LRU 0).2 = 1 := by
      rw [access_cache_ret, hf]
      rfl
    have herase : l.erase (tag_of a type) =
        (W.erase i).map (fun w => (c (set_index a type) w).tag) := by
      rw [map_erase_of_nodup _ W i hiW hmapnd, ← hl, hit]
    rw [href, hret]
    refine ⟨rfl, ?_⟩
    show row_rel _ _ _ (tag_of a type :: l.erase (tag_of a type))
    rw [herase]
    apply row_rel_touch c _ _ _ i (tag_of a type) (W.erase i) hage' hv hvv hvt hvc hoth
    · intro w
      rw [hWnd.mem_erase_iff, hW]
      constructor
      · rintro ⟨h1, h2, h3⟩
        exact ⟨h2, h1, h3⟩
      · rintro ⟨h1, h2, h3⟩
        exact ⟨h2, h1, h3⟩
    · intro w hw
      exact hnnW w (List.mem_of_mem_erase hw)
    · exact hpw.sublist (List.erase_sublist i W)
    · rw [← herase]
      exact hnd.erase _
    · rw [← herase, hnd.mem_erase_iff]
      exact fun h => h.1 rfl
  | none =>
    have hnone := (find_hit_eq_none _ _ _ _).mp hf
    have hret : (access_cache c a type .LRU 0).2 = 0 := by
      rw [access_cache_ret, hf]
      rfl
    have htl : tag_of a type ∉ l := by
      rw [hl]
      intro h
      obtain ⟨w, hw, hwt⟩ := List.mem_map.mp h
      obtain ⟨h1, h2⟩ := (hW w).mp hw
      exact hnone w h1 ⟨h2, hwt⟩
    have hlen : l.length = W.length := by rw [hl, List.length_map]
    rw [hret]
    by_cases hinv : ∃ w, w < ways type ∧ (c (set_index a type) w).valid = 0
    · have hvinv := lru_victim_invalid c a type 0 hret
        (invalid_oldest_of_age_inv c _ _ k hage) hinv
      obtain ⟨w0, hw0, hw0v⟩ := hinv
      have hlt : l.length < ways type := by
        rw [hlen]
        apply length_lt_of_missing W (ways type) w0 hWnd (fun w hw => ((hW w).mp hw).1) hw0
        intro h
        exact ((hW w0).mp h).2 hw0v
      have href : ref_touch (ways type) l (tag_of a type) = (tag_of a type :: l, 0) := by
        simp [ref_touch, htl, hlt]
      rw [href]
      refine ⟨rfl, ?_⟩
      show row_rel _ _ _ (tag_of a type :: l)
      rw [hl]
      apply row_rel_touch c _ _ _ (touched_way c a type .LRU 0) (tag_of a type) W hage' hv hvv
        hvt hvc hoth
      · intro w
        rw [hW]
        constructor
        · rintro ⟨h1, h2⟩
          refine ⟨h1, ?_, h2⟩
          intro h
          rw [h] at h2
          exact h2 hvinv
        · rintro ⟨h1, _, h3⟩
          exact ⟨h1, h3⟩
      · exact hnnW
      · exact hpw
      · exact hmapnd
      · rw [← hl]
        exact htl
    · have hall : ∀ w, w < ways type → (c (set_index a type) w).valid ≠ 0 := by
        intro w hw h0
        exact hinv ⟨w, hw, h0⟩
      have hge : ¬ l.length < ways type := by
        rw [hlen]
        have := length_ge_of_full W (ways type) (fun w hw => (hW w).mpr ⟨hw, hall w hw⟩)
        omega
      have href : ref_touch (ways type) l (tag_of a type) =
          (tag_of a type :: l.dropLast, 0) := by
        simp [ref_touch, htl, hge]
      have hmax := lru_victim_max c a type 0 hret hall
      have hvW : touched_way c a type .LRU 0 ∈ W := (hW _).mpr ⟨hv, hall _ hv⟩
      have hne : W ≠ [] := List.ne_nil_of_mem hvW
      have hsplit := List.dropLast_append_getLast hne
      have hpw' := hpw
      rw [← hsplit, List.pairwise_append] at hpw'
      have hnd' := hWnd
      rw [← hsplit, List.nodup_append] at hnd'
      have hlastW : W.getLast hne ∈ W := List.getLast_mem hne
      have hvlast : touched_way c a type .LRU 0 = W.getLast hne := by
        rw [← hsplit, List.mem_append] at hvW
        rcases hvW with h | h
        · have h1 := hpw'.2.2 _ h (W.getLast hne) (List.mem_singleton.mpr rfl)
          have h2 := hmax (W.getLast hne) ((hW _).mp hlastW).1
          omega
        · exact List.mem_singleton.mp h
      have hdrop : l.dropLast = W.dropLast.map (fun w => (c (set_index a type) w).tag) := by
        rw [hl, List.map_dropLast]
      rw [href]
      refine ⟨rfl, ?_⟩
      show row_rel _ _ _ (tag_of a type :: l.dropLast)
      rw [hdrop]
      apply row_rel_touch c _ _ _ (touched_way c a type .LRU 0) (tag_of a type) W.dropLast
        hage' hv hvv hvt hvc hoth
      · intro w
        constructor
        · intro hw
          obtain ⟨h1, h2⟩ := (hW w).mp (List.dropLast_subset W hw)
          refine ⟨h1, ?_, h2⟩
          intro h
          rw [h, hvlast] at hw
          exact hnd'.2.2 hw (List.mem_singleton.mpr rfl)
        · rintro ⟨h1, h2, h3⟩
          have hwW : w ∈ W := (hW w).mpr ⟨h1, h3⟩
          rw [← hsplit, List.mem_append] at hwW
          rcases hwW with h | h
          · exact h
          · exact absurd ((List.mem_singleton.mp h).trans hvlast.symm) h2
      · intro w hw
        exact hnnW w (List.dropLast_subset W hw)
      · exact hpw.sublist (List.dropLast_sublist W)
      · rw [← hdrop]
        exact hnd.sublist (List.dropLast_sublist l)
      · rw [← hdrop]
        intro h
        exact htl (List.dropLast_subset l h)

theorem ref_run_cons (type : CacheType) (r : RefState) (a : Nat) (rest : List Nat) :
    ref_run type r (a :: rest) =
      ((ref_run type (ref_access type r a).1 rest).1,
        (ref_access type r a).2 :: (ref_run type (ref_access type r a).1 rest).2) := rfl

theorem row_rel_init (c0 : Cache) (m n s k : Nat) (hs : s < m) (hk : k ≤ n) :
    row_rel (init_cache c0 m n) s k [] := by
  refine ⟨⟨0, age_inv_init c0 m n s k hs hk⟩, [], ?_, rfl, List.nodup_nil, List.Pairwise.nil⟩
  intro w
  constructor
  · intro h
    simp at h
  · rintro ⟨hw, hv⟩
    exact absurd (init_cache_invalid c0 m n s w hs (Nat.lt_of_lt_of_le hw hk)).1 hv

theorem run_lru_eq_ref_run (type : CacheType) (m : Nat) (trace : List Nat) (c : Cache)
    (r : RefState) (hrel : ∀ s, s < m → row_rel c s (ways type) (r s))
    (hcov : ∀ a, a ∈ trace → set_index a type < m) :
    (run_lru type c trace).2 = (ref_run type r trace).2 := by
  induction trace generalizing c r with
  | nil => rfl
  | cons a rest ih =>
    rw [run_lru_cons, ref_run_cons]
    have ha := hcov a (List.mem_cons_self a rest)
    obtain ⟨h1, h2⟩ := row_rel_access c a type (r (set_index a type)) (hrel _ ha)
    have hrest : (run_lru type (access_cache c a type .LRU 0).1 rest).2 =
        (ref_run type (ref_access type r a).1 rest).2 := by
      apply ih
      · intro s hs
        by_cases hsa : s = set_index a type
        · subst hsa
          simp only [ref_access, if_true]
          exact h2
        · simp only [ref_access, if_neg hsa]
          exact row_rel_congr c _ s (ways type) (r s)
            (fun w => other_set_unchanged c a type .LRU 0 s w hsa) (hrel s hs)
      · intro b hb
        exact hcov b (List.mem_cons_of_mem a hb)
    simp only [hrest, h1, ref_access]

/-- C20: for every cache type and every address trace applied with policy
LRU to a cache initialised by `init_cache` on all the sets the trace
selects, with at most `INT_MAX` accesses to each of these sets (so that no
counter overflows), the values returned by `access_cache` are the hit/miss
sequence of the reference LRU model, which keeps for each decoded set index
a most-recently-used-first list of at most `NUM_LINES / num_sets` tags; and
along the whole trace every counter of these sets stays between 0 and
`INT_MAX`. -/
theorem lru_refines_reference (type : CacheType) (c0 : Cache) (m n : Nat) (trace : List Nat)
    (hn : NUM_LINES / num_sets type ≤ n)
    (hcov : ∀ a, a ∈ trace → set_index a type < m)
    (hbound : ∀ s, s < m → (accesses_to type s trace : Int) ≤ INT_MAX) :
    (run_lru type (init_cache c0 m n) trace).2 = (ref_run type ref_init trace).2 ∧
    (∀ k s w, s < m → w < NUM_LINES / num_sets type →
      0 ≤ ((run_lru type (init_cache c0 m n) (trace.take k)).1 s w).counter ∧
      ((run_lru type (init_cache c0 m n) (trace.take k)).1 s w).counter ≤ INT_MAX) :=
  ⟨run_lru_eq_ref_run type m trace (init_cache c0 m n) ref_init
      (fun s hs => row_rel_init c0 m n s (ways type) hs hn) hcov,
    fun k s w hs hw => counters_in_range type c0 m n trace s k w hs hn (hbound s hs) hw⟩

theorem lru_refines_reference_witness :
    (NUM_LINES / num_sets .FOUR_WAY ≤ 4 ∧
      (∀ a, a ∈ [0x00, 0x10, 0x20, 0x30, 0x40, 0x10, 0x00] → set_index a .FOUR_WAY < 8) ∧
      ∀ s, s < 8 →
        (accesses_to .FOUR_WAY s [0x00, 0x10, 0x20, 0x30, 0x40, 0x10, 0x00] : Int) ≤ INT_MAX) ∧
    (ref_run .FOUR_WAY ref_init [0x00, 0x10, 0x20, 0x30, 0x40, 0x10, 0x00]).2 =
      [0, 0, 0, 0, 0, 1, 1] ∧
    (run_lru .FOUR_WAY (init_cache stale_cache 8 4)
      [0x00, 0x10, 0x20, 0x30, 0x40, 0x10, 0x00]).2 =
      (ref_run .FOUR_WAY ref_init [0x00, 0x10, 0x20, 0x30, 0x40, 0x10, 0x00]).2 :=
  ⟨⟨by decide, by decide, by decide⟩, by decide,
    (lru_refines_reference .FOUR_WAY stale_cache 8 4 [0x00, 0x10, 0x20, 0x30, 0x40, 0x10, 0x00]
      (by decide) (by decide) (by decide)).1⟩

end CacheSim
